import Mathlib

/-!
Formal model of the softlink installation utility (`linker.py`).

The program manipulates a POSIX filesystem through `pathlib`.  We model
`pathlib.PurePath` values as `PyPath` (an anchor flag plus the list of
normalised components — pathlib drops `.` and empty components but keeps
`..` literally), and the filesystem as an association list from literal
paths to entries (regular file with content tag, directory, or symlink
carrying its literal, unresolved target).  Intermediate-component symlink
traversal is not modelled: a path names the entry stored at its literal
key, which matches pathlib's `lstat`-based primitives
(`exists(follow_symlinks=False)`, `is_symlink`, `readlink`, `rename`,
`symlink_to`) used by the program.  `exists(follow_symlinks=True)` on the
final component is modelled by chasing symlink targets with the usual
OS symlink-loop fuel.

Mutating operations return the state at termination time together with
the outcome, so that a raised Python exception corresponds to an `Err`
value alongside the filesystem and output as they were at the raise.
-/

/-- Decimal digit character, `digitChar d` for `d < 10` is `'0'`..`'9'`. -/
def digitChar (d : Nat) : Char := Char.ofNat (48 + d)

/-- Fuel-driven decimal digit accumulation: prepends the decimal digits of
`n` to `acc` (most significant first), mirroring Python's `f"{i}"`. -/
def natReprAux : Nat → Nat → List Char → List Char
  | 0, _, acc => acc
  | f + 1, n, acc =>
    if n < 10 then digitChar n :: acc
    else natReprAux f (n / 10) (digitChar (n % 10) :: acc)

/-- Decimal rendering of a natural number, as Python's `str(i)`. -/
def natRepr (n : Nat) : String := ⟨natReprAux (n + 1) n []⟩

/-- A `pathlib` pure path: anchor flag (`True` for absolute paths) and the
normalised component list.  pathlib keeps `..` components literally. -/
structure PyPath where
  absolute : Bool
  parts : List String
deriving DecidableEq

/-- `pathlib` path join `a / b`: an absolute right operand replaces the
left operand entirely. -/
def pjoin (a b : PyPath) : PyPath :=
  if b.absolute then b else ⟨a.absolute, a.parts ++ b.parts⟩

/-- `p.parent` for a pure path. -/
def parentP (p : PyPath) : PyPath := ⟨p.absolute, p.parts.dropLast⟩

/-- A filesystem entry: regular file (with a content tag), directory, or
symbolic link storing its literal target. -/
inductive Entry where
  | file (content : String)
  | dir
  | symlink (target : PyPath)
deriving DecidableEq

/-- `true` for a regular file or directory (anything but a symlink). -/
def Entry.plainE : Entry → Bool
  | .file _ => true
  | .dir => true
  | .symlink _ => false

/-- One verbosity-gated notice printed by the program. -/
inductive Notice where
  | rename (p pb : PyPath)
  | linking (dst src : PyPath) (isDir : Bool)
  | linkOk (dst src : PyPath) (isDir : Bool)
deriving DecidableEq

/-- Errors raised by the engine.  `notAbsolute` and `doesNotExist` are the
`ValueError` precondition failures of `safe_remove`, `srcNotFound` the
`ValueError` of `safe_link`, `failedToMove` the `RuntimeError` integrity
failure, `mkdirConflict`/`fileExists` the `OSError`s of `mkdir` and
`symlink_to`, and `fuelExhausted` is the artefact of bounding the
unbounded `itertools.count()` search in the embedding. -/
inductive Err where
  | notAbsolute (p : PyPath)
  | doesNotExist (p : PyPath)
  | srcNotFound (p : PyPath)
  | failedToMove (p : PyPath)
  | mkdirConflict (p : PyPath)
  | fileExists (p : PyPath)
  | fuelExhausted
deriving DecidableEq

instance {α β : Type} [DecidableEq α] [DecidableEq β] : DecidableEq (Except α β)
  | .ok x, .ok y =>
    if h : x = y then isTrue (by rw [h]) else isFalse (fun hh => h (Except.ok.inj hh))
  | .error x, .error y =>
    if h : x = y then isTrue (by rw [h]) else isFalse (fun hh => h (Except.error.inj hh))
  | .ok _, .error _ => isFalse (fun hh => Except.noConfusion hh)
  | .error _, .ok _ => isFalse (fun hh => Except.noConfusion hh)

/-- The filesystem: an association list from literal absolute-or-relative
paths to entries. -/
abbrev FSys := List (PyPath × Entry)

/-- Run state: filesystem plus the notices printed so far. -/
structure St where
  fs : FSys
  out : List Notice
deriving DecidableEq

/-- Entry stored at the literal key `p` (no symlink following). -/
def lookupFS : FSys → PyPath → Option Entry
  | [], _ => none
  | (q, e) :: t, p => if q = p then some e else lookupFS t p

/-- `p.exists(follow_symlinks=False)` / `lstat` success. -/
def existsNoFollow (fs : FSys) (p : PyPath) : Bool := (lookupFS fs p).isSome

/-- Resolve the final component of `p` through symlinks, with fuel
(mirroring the OS symlink-loop limit).  A relative symlink target is
interpreted relative to the link's parent directory. -/
def resolveEntry (fs : FSys) : Nat → PyPath → Option Entry
  | 0, _ => none
  | fuel + 1, p =>
    match lookupFS fs p with
    | some (.symlink t) => resolveEntry fs fuel (pjoin (parentP p) t)
    | e => e

/-- `p.exists(follow_symlinks=True)` (`False` on broken or looping links). -/
def existsFollow (fs : FSys) (p : PyPath) : Bool := (resolveEntry fs 40 p).isSome

/-- `p.is_dir()` (follows symlinks). -/
def isDirFollow (fs : FSys) (p : PyPath) : Bool :=
  resolveEntry fs 40 p == some Entry.dir

/-- The textual suffix `.bkp_{i}` appended by `safe_remove`. -/
def bkpSuffix (i : Nat) : String := ".bkp_" ++ natRepr i

/-- Component list of `Path(f"{p}.bkp_{i}")`: the textual suffix attaches
to the last component (for the root path, `str` ends with the separator,
so the suffix becomes a fresh first component). -/
def bkpParts (p : List String) (i : Nat) : List String :=
  match p.getLast? with
  | none => [bkpSuffix i]
  | some l => p.dropLast ++ [l ++ bkpSuffix i]

/-- The candidate backup name `Path(f"{p}.bkp_{i}")`. -/
def bkpName (p : PyPath) (i : Nat) : PyPath := ⟨p.absolute, bkpParts p.parts i⟩

/-- The loop `for i in count(): ...` of `safe_remove`, bounded by fuel:
returns the first index `≥ start` whose backup name is unoccupied. -/
def findFreeIdx (fs : FSys) (p : PyPath) : Nat → Nat → Option Nat
  | 0, _ => none
  | fuel + 1, i =>
    if existsNoFollow fs (bkpName p i) then findFreeIdx fs p fuel (i + 1)
    else some i

/-- `a` is `k` or an ancestor of `k`, literally by components (this is
`a == k or a in k.parents` in pathlib terms). -/
def underOrEq (a k : PyPath) : Prop := a.absolute = k.absolute ∧ a.parts <+: k.parts

instance (a k : PyPath) : Decidable (underOrEq a k) := by
  unfold underOrEq; infer_instance

/-- Key translation performed by `p.rename(pb)`: every key at or below
`p` moves to the corresponding key at or below `pb`. -/
def replacePrefix (p pb k : PyPath) : PyPath :=
  if underOrEq p k then ⟨pb.absolute, pb.parts ++ k.parts.drop p.parts.length⟩ else k

/-- `p.rename(pb)` on the filesystem: the whole subtree rooted at `p`
moves under `pb`; symlink targets are untouched. -/
def renameFS (fs : FSys) (p pb : PyPath) : FSys :=
  fs.map fun q => (replacePrefix p pb q.1, q.2)

def VerboseLevel.NOTHING : Nat := 0
def VerboseLevel.RENAME_FILE : Nat := 1
def VerboseLevel.CREATE_LINK : Nat := 2
def VerboseLevel.LINK_OK : Nat := 3

def MAX_VERBOSE : Nat := VerboseLevel.LINK_OK

/-- The post-rename integrity check of `safe_remove` (lines 102–103):
raises `RuntimeError` when the original path still exists. -/
def postRenameCheck (fs : FSys) (p pb : PyPath) : Except Err PyPath :=
  if existsNoFollow fs p then .error (.failedToMove p) else .ok pb

/-- `safe_remove(p, verbose_level)`: rename `p` to the first unoccupied
`p.bkp_N`, printing the rename notice at verbosity ≥ `RENAME_FILE`.
Returns the state at termination and the backup path (or the raised
error).  The unbounded index search is bounded by
`fs.length + 1` fuel, which covers every index the search can reach when
the occupied names are filesystem keys. -/
def safe_remove (s : St) (p : PyPath) (v : Nat) : St × Except Err PyPath :=
  if ¬ p.absolute then (s, .error (.notAbsolute p))
  else if ¬ existsNoFollow s.fs p then (s, .error (.doesNotExist p))
  else
    match findFreeIdx s.fs p (s.fs.length + 1) 0 with
    | none => (s, .error .fuelExhausted)
    | some i =>
      let pb := bkpName p i
      let out := if VerboseLevel.RENAME_FILE ≤ v then s.out ++ [.rename p pb] else s.out
      let fs' := renameFS s.fs p pb
      match postRenameCheck fs' p pb with
      | .error e => (⟨fs', out⟩, .error e)
      | .ok pb => (⟨fs', out⟩, .ok pb)

/-- `dst.parent.mkdir(exist_ok=True, parents=True)` restricted to the
first `n` components: create each missing prefix directory in turn,
tolerating existing directories (also behind symlinks), failing on a
conflicting non-directory entry. -/
def mkdirUpTo (fs : FSys) (a : Bool) (ps : List String) : Nat → Except Err FSys
  | 0 => .ok fs
  | n + 1 =>
    match mkdirUpTo fs a ps n with
    | .error e => .error e
    | .ok acc =>
      match lookupFS acc ⟨a, ps.take (n + 1)⟩ with
      | none => .ok ((⟨a, ps.take (n + 1)⟩, .dir) :: acc)
      | some .dir => .ok acc
      | some (.symlink _) =>
        if isDirFollow acc ⟨a, ps.take (n + 1)⟩ then .ok acc
        else .error (.mkdirConflict ⟨a, ps.take (n + 1)⟩)
      | some (.file _) => .error (.mkdirConflict ⟨a, ps.take (n + 1)⟩)

/-- `p.mkdir(exist_ok=True, parents=True)`. -/
def mkdirParents (fs : FSys) (p : PyPath) : Except Err FSys :=
  mkdirUpTo fs p.absolute p.parts p.parts.length

/-- `dst.symlink_to(src)`: fails if anything exists at `dst`. -/
def symlinkTo (fs : FSys) (dst src : PyPath) : Except Err FSys :=
  if existsNoFollow fs dst then .error (.fileExists dst)
  else .ok ((dst, .symlink src) :: fs)

/-- The tail of `safe_link` after the no-op check and the backup (lines
134–137): print the linking notice at verbosity ≥ `CREATE_LINK`, ensure
the parent directory chain, create the symlink. -/
def createLink (s : St) (src dst : PyPath) (v : Nat) (isDir : Bool) : St × Option Err :=
  let out := if VerboseLevel.CREATE_LINK ≤ v then s.out ++ [.linking dst src isDir] else s.out
  match mkdirParents s.fs (parentP dst) with
  | .error e => (⟨s.fs, out⟩, some e)
  | .ok fs₁ =>
    match symlinkTo fs₁ dst src with
    | .error e => (⟨fs₁, out⟩, some e)
    | .ok fs₂ => (⟨fs₂, out⟩, none)

/-- The idempotence test of `safe_link` (line 128):
`dst.is_symlink() and dst.readlink() == src`, on the literal target. -/
def linkOkCheck (fs : FSys) (dst src : PyPath) : Bool :=
  match lookupFS fs dst with
  | some (.symlink t) => t = src
  | _ => false

/-- `safe_link(src, dst, verbose_level)`. -/
def safe_link (s : St) (src dst : PyPath) (v : Nat) : St × Option Err :=
  if ¬ dst.absolute then (s, some (.notAbsolute dst))
  else if ¬ src.absolute then (s, some (.notAbsolute src))
  else if ¬ existsFollow s.fs src then (s, some (.srcNotFound src))
  else if linkOkCheck s.fs dst src then
    (⟨s.fs, if VerboseLevel.LINK_OK ≤ v then
        s.out ++ [.linkOk dst src (isDirFollow s.fs src)] else s.out⟩,
      none)
  else if existsNoFollow s.fs dst then
    match safe_remove s dst v with
    | (s', .error e) => (s', some e)
    | (s', .ok _) => createLink s' src dst v (isDirFollow s.fs src)
  else createLink s src dst v (isDirFollow s.fs src)

/-- Outcome converter: a raised error as an `Option`. -/
def errOf : Except Err PyPath → Option Err
  | .error e => some e
  | .ok _ => none

/-- One entry of `install_links`: removal marker (`src is None`, lines
156–158) or link creation (line 160). -/
def installStep (s : St) (dst : PyPath) (srcOpt : Option PyPath) (v : Nat) : St × Option Err :=
  match srcOpt with
  | none =>
    if existsNoFollow s.fs dst then
      match safe_remove s dst v with
      | (s', r) => (s', errOf r)
    else (s, none)
  | some src => safe_link s src dst v

/-- `install_links(locations, verbose_level)`: apply every entry in
order; a raised error aborts the remaining batch with the state as of the
failure. -/
def install_links (s : St) (locs : List (PyPath × Option PyPath)) (v : Nat) :
    St × Option Err :=
  match locs with
  | [] => (s, none)
  | (dst, srcOpt) :: rest =>
    match installStep s dst srcOpt v with
    | (s', some e) => (s', some e)
    | (s', none) => install_links s' rest v

/-- `Path.expanduser()` for the destination keys: a leading `~` component
of a relative path is replaced by the home directory.  (`~user` forms are
left literal.) -/
def expanduserP (home p : PyPath) : PyPath :=
  match p.absolute, p.parts with
  | false, "~" :: rest => pjoin home ⟨false, rest⟩
  | _, _ => p

/-- `Path.absolute()`: anchor a relative path at the working directory. -/
def pabsolute (cwd p : PyPath) : PyPath := if p.absolute then p else pjoin cwd p

/-- `a in p.parents`: `a` is a strict literal-component ancestor of `p`. -/
def inParents (a p : PyPath) : Bool :=
  a.absolute == p.absolute && a.parts.isPrefixOf p.parts
    && a.parts.length != p.parts.length

/-- Configuration errors of `read_locations_file` (all `ValueError`s in
the source; `dstOutside`/`srcOutside` are the scope violations). -/
inductive CfgErr where
  | bothFlags
  | relDst
  | absDst
  | absSrc
  | dstOutside (root : PyPath)
  | srcOutside (root : PyPath)
deriving DecidableEq

/-- The resolution and validation part of `read_locations_file` (lines
194–226), taking the already-parsed key/value pairs (`tomllib` and the
`Path`/`None` conversion are the external parser). -/
def read_locations_file (data : List (PyPath × Option PyPath))
    (src_dir dst_dir cwd home : PyPath)
    (allow_linking_outside_dst_dir fail_if_relative_dst fail_if_absolute_dst : Bool) :
    Except CfgErr (List (PyPath × Option PyPath)) :=
  if fail_if_relative_dst && fail_if_absolute_dst then .error .bothFlags
  else if fail_if_relative_dst && data.any (fun x => !x.1.absolute) then .error .relDst
  else if fail_if_absolute_dst && data.any (fun x => x.1.absolute) then .error .absDst
  else if data.any (fun x => x.2.any (·.absolute)) then .error .absSrc
  else if !allow_linking_outside_dst_dir
      && !((data.map fun x =>
            (pjoin (pabsolute cwd dst_dir) (expanduserP home x.1),
              x.2.map (pjoin (pabsolute cwd src_dir) ·))).all
          fun x => inParents (pabsolute cwd dst_dir) x.1) then
    .error (.dstOutside (pabsolute cwd dst_dir))
  else if !((data.map fun x =>
            (pjoin (pabsolute cwd dst_dir) (expanduserP home x.1),
              x.2.map (pjoin (pabsolute cwd src_dir) ·))).all
          fun x => x.2.all (inParents (pabsolute cwd src_dir) ·)) then
    .error (.srcOutside (pabsolute cwd src_dir))
  else
    .ok ((data.map fun x =>
      (pjoin (pabsolute cwd dst_dir) (expanduserP home x.1),
        x.2.map (pjoin (pabsolute cwd src_dir) ·))))

/-- Lexical `..` resolution (what the installed links mean to the real
filesystem, used to exhibit scope escapes; the program never applies it). -/
def normParts (ps : List String) : List String :=
  ps.foldl (fun acc c => if c = ".." then acc.dropLast else acc ++ [c]) []

/-!
## Separation of path families

`extStr l o` / `extPartsL p o` / `extP d o` describe the family of names
an installation run can write at or under a given destination `d`: the
destination itself (`o = none`) and each of its backup names
(`o = some n`).  `pathSep d₁ d₂` is a decidable sufficient condition for
the two families to be mutually non-overlapping (no member of one family
is a literal ancestor of, or equal to, a member of the other); it is the
formal content of "non-interfering entries".
-/

/-- A possible textual extension of a last component: itself, or with one
backup suffix appended. -/
def extStr (l : String) : Option Nat → String
  | none => l
  | some n => l ++ bkpSuffix n

/-- A possible extension of a component list. -/
def extPartsL (p : List String) : Option Nat → List String
  | none => p
  | some n => bkpParts p n

/-- A possible extension of a path: the path or one of its backup names. -/
def extP (d : PyPath) : Option Nat → PyPath
  | none => d
  | some n => bkpName d n

/-- Two strings neither of which is a prefix of the other. -/
def stemSep (a b : String) : Bool :=
  !(a.data.isPrefixOf b.data) && !(b.data.isPrefixOf a.data)

/-- Sufficient condition for: no extension of `p₁` is a literal prefix of
an extension of `p₂` (as component lists). -/
def extSep (p₁ p₂ : List String) : Bool :=
  !p₁.isEmpty && !p₂.isEmpty &&
    (!(p₁.dropLast.isPrefixOf p₂) ||
      match p₂.drop p₁.dropLast.length with
      | [] => true
      | c :: _ => stemSep (p₁.getLastD "") c)

/-- Sufficient condition for the name families of two paths to be
mutually non-overlapping. -/
def pathSep (d₁ d₂ : PyPath) : Bool :=
  (d₁.absolute != d₂.absolute) || (extSep d₁.parts d₂.parts && extSep d₂.parts d₁.parts)

theorem bkpSuffix_data_ne_nil (n : Nat) : (bkpSuffix n).data ≠ [] := by
  show ((".bkp_" : String) ++ natRepr n).data ≠ []
  rw [String.data_append]
  intro h
  have h5 : (".bkp_" : String).data = ['.', 'b', 'k', 'p', '_'] := rfl
  rw [h5] at h
  simp at h

theorem extStr_data (l : String) (o : Option Nat) :
    (extStr l o).data = l.data ++ (match o with | none => [] | some n => (bkpSuffix n).data) := by
  cases o with
  | none => simp [extStr]
  | some n => simp [extStr, String.data_append]

theorem self_ne_extend (l : String) (n : Nat) : l ≠ l ++ bkpSuffix n := by
  intro h
  have hd : l.data = l.data ++ (bkpSuffix n).data := by
    conv_lhs => rw [h]
    exact String.data_append l (bkpSuffix n)
  have hlen := congrArg List.length hd
  rw [List.length_append] at hlen
  have hz : (bkpSuffix n).data.length = 0 := by omega
  exact bkpSuffix_data_ne_nil n (List.length_eq_zero.mp hz)

theorem extPartsL_eq {p : List String} (hp : p ≠ []) (o : Option Nat) :
    extPartsL p o = p.dropLast ++ [extStr (p.getLastD "") o] := by
  cases o with
  | none =>
    show p = _
    rw [List.getLastD_eq_getLast?, List.getLast?_eq_getLast p hp]
    exact (List.dropLast_append_getLast hp).symm
  | some n =>
    show bkpParts p n = _
    rw [List.getLastD_eq_getLast?, List.getLast?_eq_getLast p hp]
    simp [bkpParts, List.getLast?_eq_getLast p hp, extStr]

theorem prefix_concat_decomp {α : Type} {x : List α} {a : α} {L : List α}
    (h : x ++ [a] <+: L) : x <+: L ∧ L[x.length]? = some a := by
  obtain ⟨t, ht⟩ := h
  subst ht
  rw [List.append_assoc]
  constructor
  · exact List.prefix_append x ([a] ++ t)
  · rw [List.getElem?_append_right (Nat.le_refl _)]
    simp

theorem stemSep_not_left {a b : String} (h : stemSep a b = true) :
    ¬ a.data <+: b.data := by
  intro hab
  have := (Bool.and_eq_true _ _).mp h
  rw [Bool.not_eq_eq_eq_not, Bool.not_true] at this
  exact absurd (List.isPrefixOf_iff_prefix.mpr hab) (by simp [this.1])

theorem stemSep_symm {a b : String} (h : stemSep a b = true) : stemSep b a = true := by
  have := (Bool.and_eq_true _ _).mp h
  simp only [stemSep]
  rw [Bool.and_eq_true]
  exact ⟨this.2, this.1⟩

theorem extStr_eq_extStr {l₁ l₂ : String} {o₁ o₂ : Option Nat}
    (hsep : stemSep l₁ l₂ = true) : extStr l₁ o₁ ≠ extStr l₂ o₂ := by
  intro h
  obtain ⟨A, hA⟩ : ∃ A, (extStr l₁ o₁).data = l₁.data ++ A := ⟨_, extStr_data l₁ o₁⟩
  obtain ⟨B, hB⟩ : ∃ B, (extStr l₂ o₂).data = l₂.data ++ B := ⟨_, extStr_data l₂ o₂⟩
  have hd : l₁.data ++ A = l₂.data ++ B := by rw [← hA, ← hB, h]
  rcases Nat.le_total l₁.data.length l₂.data.length with hle | hle
  · have h₁ : l₁.data <+: l₂.data ++ B := hd ▸ List.prefix_append l₁.data A
    exact stemSep_not_left hsep
      (List.prefix_of_prefix_length_le h₁ (List.prefix_append _ _) hle)
  · have h₂ : l₂.data <+: l₁.data ++ A := hd.symm ▸ List.prefix_append l₂.data B
    exact stemSep_not_left (stemSep_symm hsep)
      (List.prefix_of_prefix_length_le h₂ (List.prefix_append _ _) hle)

theorem extStr_prefix_data (l : String) (o : Option Nat) : l.data <+: (extStr l o).data := by
  rw [extStr_data]
  exact List.prefix_append _ _

theorem extSep_sound {p₁ p₂ : List String} (h : extSep p₁ p₂ = true) (o₁ o₂ : Option Nat) :
    ¬ (extPartsL p₁ o₁ <+: extPartsL p₂ o₂) := by
  intro hpre
  have h' := (Bool.and_eq_true _ _).mp h
  have h'' := (Bool.and_eq_true _ _).mp h'.1
  have hp₁ : p₁ ≠ [] := by
    intro hh; rw [hh] at h''; simp at h''
  have hp₂ : p₂ ≠ [] := by
    intro hh
    have hx := h''.2
    rw [hh] at hx; simp at hx
  rw [extPartsL_eq hp₁ o₁, extPartsL_eq hp₂ o₂] at hpre
  obtain ⟨hinitpre, hget⟩ := prefix_concat_decomp hpre
  have hlen : p₁.dropLast.length ≤ p₂.dropLast.length := by
    have := hpre.length_le
    simp only [List.length_append, List.length_singleton] at this
    omega
  have hinit₂ : p₁.dropLast <+: p₂.dropLast :=
    List.prefix_of_prefix_length_le hinitpre (List.prefix_append _ _) hlen
  have hinitp₂ : p₁.dropLast <+: p₂ :=
    hinit₂.trans (by
      conv_rhs => rw [← List.dropLast_append_getLast hp₂]
      exact List.prefix_append _ _)
  rcases (Bool.or_eq_true _ _).mp h'.2 with hno | hmatch
  · rw [Bool.not_eq_eq_eq_not, Bool.not_true] at hno
    exact absurd (List.isPrefixOf_iff_prefix.mpr hinitp₂) (by simp [hno])
  · have hdroplen : p₁.dropLast.length < p₂.length := by
      have : p₂.dropLast.length + 1 = p₂.length := by
        conv_rhs => rw [← List.dropLast_append_getLast hp₂]
        simp
      omega
    have hdropne : p₂.drop p₁.dropLast.length ≠ [] := by
      rw [Ne, List.drop_eq_nil_iff]
      omega
    rcases hc : p₂.drop p₁.dropLast.length with _ | ⟨c, rest⟩
    · exact hdropne hc
    rw [hc] at hmatch
    have hstem : stemSep (p₁.getLastD "") c = true := hmatch
    have hcval : p₂[p₁.dropLast.length]? = some c := by
      have h0 := List.getElem?_drop p₂ p₁.dropLast.length 0
      rw [hc] at h0
      simpa using h0.symm
    rcases Nat.lt_or_ge p₁.dropLast.length p₂.dropLast.length with hlt | hge
    · have hgetinit : (p₂.dropLast ++ [extStr (p₂.getLastD "") o₂])[p₁.dropLast.length]? =
          p₂.dropLast[p₁.dropLast.length]? := List.getElem?_append_left hlt
      have hcval' : p₂[p₁.dropLast.length]? = p₂.dropLast[p₁.dropLast.length]? := by
        conv_lhs => rw [← List.dropLast_append_getLast hp₂]
        exact List.getElem?_append_left hlt
      rw [hgetinit, ← hcval', hcval] at hget
      have hec : extStr (p₁.getLastD "") o₁ = c := (Option.some_inj.mp hget).symm
      exact stemSep_not_left hstem (hec ▸ extStr_prefix_data _ o₁)
    · have heq : p₁.dropLast.length = p₂.dropLast.length := Nat.le_antisymm hlen hge
      have hget₂ : (p₂.dropLast ++ [extStr (p₂.getLastD "") o₂])[p₁.dropLast.length]? =
          some (extStr (p₂.getLastD "") o₂) := by
        rw [List.getElem?_append_right (by omega)]
        simp [heq]
      rw [hget₂] at hget
      have hee : extStr (p₁.getLastD "") o₁ = extStr (p₂.getLastD "") o₂ :=
        (Option.some_inj.mp hget).symm
      have hc₂ : c = p₂.getLastD "" := by
        have hcval'' : p₂[p₁.dropLast.length]? = some (p₂.getLastD "") := by
          conv_lhs => rw [← List.dropLast_append_getLast hp₂]
          rw [List.getElem?_append_right (by omega)]
          simp [heq, List.getLastD_eq_getLast?, List.getLast?_eq_getLast p₂ hp₂]
        rw [hcval] at hcval''
        exact Option.some_inj.mp hcval''
      exact extStr_eq_extStr (hc₂ ▸ hstem) hee

theorem pathSep_sound {d₁ d₂ : PyPath} (h : pathSep d₁ d₂ = true) (o₁ o₂ : Option Nat) :
    ¬ underOrEq (extP d₁ o₁) (extP d₂ o₂) ∧ ¬ underOrEq (extP d₂ o₂) (extP d₁ o₁) := by
  have habs₁ : (extP d₁ o₁).absolute = d₁.absolute := by cases o₁ <;> rfl
  have habs₂ : (extP d₂ o₂).absolute = d₂.absolute := by cases o₂ <;> rfl
  have hparts₁ : (extP d₁ o₁).parts = extPartsL d₁.parts o₁ := by cases o₁ <;> rfl
  have hparts₂ : (extP d₂ o₂).parts = extPartsL d₂.parts o₂ := by cases o₂ <;> rfl
  rcases (Bool.or_eq_true _ _).mp h with hne | hsep
  · have : d₁.absolute ≠ d₂.absolute := by
      intro hh; rw [hh] at hne; simp at hne
    constructor
    · intro ⟨ha, _⟩; rw [habs₁, habs₂] at ha; exact this ha
    · intro ⟨ha, _⟩; rw [habs₁, habs₂] at ha; exact this ha.symm
  · have hs := (Bool.and_eq_true _ _).mp hsep
    constructor
    · intro ⟨_, hpre⟩
      rw [hparts₁, hparts₂] at hpre
      exact extSep_sound hs.1 o₁ o₂ hpre
    · intro ⟨_, hpre⟩
      rw [hparts₁, hparts₂] at hpre
      exact extSep_sound hs.2 o₂ o₁ hpre

theorem pathSep_ne {d₁ d₂ : PyPath} (h : pathSep d₁ d₂ = true) (o₁ o₂ : Option Nat) :
    extP d₁ o₁ ≠ extP d₂ o₂ := by
  intro hh
  exact (pathSep_sound h o₁ o₂).1 ⟨by rw [hh], by rw [hh]⟩

/-! ## Lookup lemmas for the filesystem primitives -/

theorem underOrEq_refl (p : PyPath) : underOrEq p p := ⟨rfl, List.prefix_refl p.parts⟩

theorem pyPathEq {a b : PyPath} (h1 : a.absolute = b.absolute) (h2 : a.parts = b.parts) :
    a = b := by
  cases a; cases b; simp_all

theorem bkpParts_length {p : List String} (hp : p ≠ []) (n : Nat) :
    (bkpParts p n).length = p.length := by
  have hpos : 0 < p.length := List.length_pos.mpr hp
  simp [bkpParts, List.getLast?_eq_getLast p hp]
  omega

theorem bkpParts_ne (p : List String) (n : Nat) : bkpParts p n ≠ p := by
  rcases eq_or_ne p [] with hp | hp
  · subst hp
    simp [bkpParts]
  · intro hh
    have hsplit : p.dropLast ++ [p.getLast hp ++ bkpSuffix n] = p.dropLast ++ [p.getLast hp] := by
      have h1 : bkpParts p n = p.dropLast ++ [p.getLast hp ++ bkpSuffix n] := by
        simp [bkpParts, List.getLast?_eq_getLast p hp]
      rw [← h1, hh]
      exact (List.dropLast_append_getLast hp).symm
    have := List.append_cancel_left hsplit
    have hlast : p.getLast hp ++ bkpSuffix n = p.getLast hp := by
      injection this
    exact self_ne_extend _ n hlast.symm

theorem lookup_renameFS_frame (fs : FSys) {p pb k : PyPath}
    (h1 : ¬ underOrEq p k) (h2 : ¬ underOrEq pb k) :
    lookupFS (renameFS fs p pb) k = lookupFS fs k := by
  induction fs with
  | nil => rfl
  | cons qe t ih =>
    obtain ⟨q, e⟩ := qe
    have hrw : renameFS ((q, e) :: t) p pb = (replacePrefix p pb q, e) :: renameFS t p pb := rfl
    rw [hrw]
    simp only [lookupFS]
    by_cases hq : underOrEq p q
    · rw [replacePrefix, if_pos hq]
      have hne₁ : (⟨pb.absolute, pb.parts ++ q.parts.drop p.parts.length⟩ : PyPath) ≠ k := by
        intro hh
        exact h2 (hh ▸ ⟨rfl, List.prefix_append _ _⟩)
      have hne₂ : q ≠ k := fun hh => h1 (hh ▸ hq)
      rw [if_neg hne₁, if_neg hne₂]
      exact ih
    · rw [replacePrefix, if_neg hq]
      by_cases hqk : q = k
      · rw [if_pos hqk, if_pos hqk]
      · rw [if_neg hqk, if_neg hqk]
        exact ih

theorem lookup_renameFS_self (fs : FSys) (p : PyPath) (n : Nat) :
    lookupFS (renameFS fs p (bkpName p n)) p = none := by
  induction fs with
  | nil => rfl
  | cons qe t ih =>
    obtain ⟨q, e⟩ := qe
    have hrw : renameFS ((q, e) :: t) p (bkpName p n)
        = (replacePrefix p (bkpName p n) q, e) :: renameFS t p (bkpName p n) := rfl
    rw [hrw]
    simp only [lookupFS]
    have hne : replacePrefix p (bkpName p n) q ≠ p := by
      rw [replacePrefix]
      split
      · intro hh
        have hparts : bkpParts p.parts n ++ q.parts.drop p.parts.length = p.parts :=
          congrArg PyPath.parts hh
        rcases eq_or_ne p.parts [] with hp | hp
        · rw [hp] at hparts
          simp [bkpParts] at hparts
        · have hlenb := bkpParts_length hp n
          have hlen := congrArg List.length hparts
          rw [List.length_append, hlenb] at hlen
          have hrest : q.parts.drop p.parts.length = [] :=
            List.length_eq_zero.mp (by omega)
          rw [hrest, List.append_nil] at hparts
          exact bkpParts_ne p.parts n hparts
      · intro hh
        rename_i hq
        exact hq (hh ▸ underOrEq_refl p)
    rw [if_neg hne]
    exact ih

theorem lookup_renameFS_target (fs : FSys) {p : PyPath} (n : Nat)
    (hfree : lookupFS fs (bkpName p n) = none) :
    lookupFS (renameFS fs p (bkpName p n)) (bkpName p n) = lookupFS fs p := by
  induction fs with
  | nil => rfl
  | cons qe t ih =>
    obtain ⟨q, e⟩ := qe
    have hfree' : q ≠ bkpName p n ∧ lookupFS t (bkpName p n) = none := by
      simp only [lookupFS] at hfree
      by_cases hq : q = bkpName p n
      · rw [if_pos hq] at hfree; exact absurd hfree (by simp)
      · rw [if_neg hq] at hfree; exact ⟨hq, hfree⟩
    have hrw : renameFS ((q, e) :: t) p (bkpName p n)
        = (replacePrefix p (bkpName p n) q, e) :: renameFS t p (bkpName p n) := rfl
    rw [hrw]
    simp only [lookupFS]
    by_cases hqp : q = p
    · subst hqp
      have himg : replacePrefix q (bkpName q n) q = bkpName q n := by
        rw [replacePrefix, if_pos (underOrEq_refl q)]
        exact pyPathEq rfl (by simp)
      rw [himg, if_pos rfl, if_pos rfl]
    · by_cases hq : underOrEq p q
      · have hrest : q.parts.drop p.parts.length ≠ [] := by
          intro hh
          have hle := List.drop_eq_nil_iff.mp hh
          have hpre := hq.2
          have heqparts : p.parts = q.parts :=
            hpre.eq_of_length (Nat.le_antisymm hpre.length_le hle)
          exact hqp (pyPathEq hq.1.symm heqparts.symm)
        have himg : replacePrefix p (bkpName p n) q
            = ⟨(bkpName p n).absolute, (bkpName p n).parts ++ q.parts.drop p.parts.length⟩ := by
          rw [replacePrefix, if_pos hq]
        have hne₁ : replacePrefix p (bkpName p n) q ≠ bkpName p n := by
          rw [himg]
          intro hh
          have hparts := congrArg PyPath.parts hh
          have hlen := congrArg List.length hparts
          rw [List.length_append] at hlen
          have : q.parts.drop p.parts.length = [] := List.length_eq_zero.mp (by omega)
          exact hrest this
        rw [if_neg hne₁, if_neg hqp]
        exact ih hfree'.2
      · have himg : replacePrefix p (bkpName p n) q = q := by
          rw [replacePrefix, if_neg hq]
        rw [himg, if_neg hfree'.1, if_neg hqp]
        exact ih hfree'.2

theorem findFreeIdx_free {fs : FSys} {p : PyPath} :
    ∀ {fuel i j}, findFreeIdx fs p fuel i = some j →
      existsNoFollow fs (bkpName p j) = false := by
  intro fuel
  induction fuel with
  | zero => intro i j h; exact absurd h (by simp [findFreeIdx])
  | succ f ih =>
    intro i j h
    rw [findFreeIdx] at h
    split at h
    · exact ih h
    · rename_i hocc
      cases h
      simpa using hocc

theorem findFreeIdx_eval {fs : FSys} {p : PyPath} :
    ∀ {fuel i N}, (∀ k, i ≤ k → k < N → existsNoFollow fs (bkpName p k) = true) →
      existsNoFollow fs (bkpName p N) = false → i ≤ N → N < i + fuel →
      findFreeIdx fs p fuel i = some N := by
  intro fuel
  induction fuel with
  | zero => intro i N _ _ _ hlt; omega
  | succ f ih =>
    intro i N hocc hfree hle hlt
    rw [findFreeIdx]
    rcases eq_or_ne i N with hi | hi
    · subst hi
      rw [hfree]
      simp
    · have hocc₀ : existsNoFollow fs (bkpName p i) = true :=
        hocc i (Nat.le_refl i) (by omega)
      rw [hocc₀]
      simp only [if_true]
      exact ih (fun k hk₁ hk₂ => hocc k (by omega) hk₂) hfree (by omega) (by omega)

theorem safe_remove_ok {s : St} {p : PyPath} {v : Nat} {s' : St} {pb : PyPath}
    (h : safe_remove s p v = (s', .ok pb)) :
    ∃ n, pb = bkpName p n ∧ lookupFS s.fs pb = none ∧
      s'.fs = renameFS s.fs p pb ∧
      s'.out = s.out ++ (if VerboseLevel.RENAME_FILE ≤ v then [.rename p pb] else []) ∧
      p.absolute = true ∧ existsNoFollow s.fs p = true := by
  rw [safe_remove] at h
  split at h
  · exact absurd (congrArg Prod.snd h) (by simp)
  · split at h
    · exact absurd (congrArg Prod.snd h) (by simp)
    · rename_i habs hex
      split at h
      · exact absurd (congrArg Prod.snd h) (by simp)
      · rename_i i hfind
        simp only at h
        split at h
        · exact absurd (congrArg Prod.snd h) (by simp)
        · rename_i x hpost
          rw [postRenameCheck] at hpost
          split at hpost
          · exact absurd hpost (by simp)
          · have hx : x = bkpName p i := by
              have := Option.some.inj (congrArg Except.toOption hpost)
              exact this.symm
            have hpb : pb = bkpName p i := by
              have h2 := congrArg Prod.snd h
              simp only at h2
              rw [hx] at h2
              exact (Except.ok.inj h2).symm
            refine ⟨i, hpb, ?_, ?_, ?_, by simpa using habs, by simpa using hex⟩
            · rw [hpb]
              have hfree := findFreeIdx_free hfind
              rw [existsNoFollow] at hfree
              cases hl : lookupFS s.fs (bkpName p i) with
              | none => rfl
              | some e => rw [hl] at hfree; simp at hfree
            · have h1 := congrArg Prod.fst h
              simp only at h1
              rw [← h1, hpb]
            · have h1 := congrArg Prod.fst h
              simp only at h1
              rw [← h1, hpb]
              by_cases hv : VerboseLevel.RENAME_FILE ≤ v <;> simp [hv]

theorem safe_remove_eval {s : St} {p : PyPath} {v : Nat} {N : Nat}
    (habs : p.absolute = true) (hex : existsNoFollow s.fs p = true)
    (hocc : ∀ i, i < N → existsNoFollow s.fs (bkpName p i) = true)
    (hfree : existsNoFollow s.fs (bkpName p N) = false)
    (hfuel : N ≤ s.fs.length) :
    safe_remove s p v =
      (⟨renameFS s.fs p (bkpName p N),
        s.out ++ if VerboseLevel.RENAME_FILE ≤ v then [.rename p (bkpName p N)] else []⟩,
        .ok (bkpName p N)) := by
  rw [safe_remove]
  rw [if_neg (by simp [habs]), if_neg (by simp [hex])]
  rw [findFreeIdx_eval (fun k _ hk => hocc k hk) hfree (Nat.zero_le N) (by omega)]
  simp only
  rw [postRenameCheck]
  rw [if_neg (by simp [existsNoFollow, lookup_renameFS_self])]
  simp only
  by_cases hv : VerboseLevel.RENAME_FILE ≤ v <;> simp [hv]

theorem mkdirUpTo_frame {fs : FSys} {a : Bool} {ps : List String} :
    ∀ {n : Nat} {fs' : FSys}, mkdirUpTo fs a ps n = .ok fs' →
      ∀ k, lookupFS fs' k = lookupFS fs k ∨
        (lookupFS fs k = none ∧ lookupFS fs' k = some .dir ∧
          k.absolute = a ∧ k.parts <+: ps.take n) := by
  intro n
  induction n with
  | zero =>
    intro fs' h k
    rw [mkdirUpTo] at h
    cases h
    exact Or.inl rfl
  | succ m ih =>
    intro fs' h k
    rw [mkdirUpTo] at h
    split at h
    · exact absurd h (by simp)
    · rename_i acc hacc
      have lift : ∀ x, x <+: ps.take m → x <+: ps.take (m + 1) := fun x hx =>
        hx.trans (List.take_isPrefix_take.mpr (Or.inl (by omega)))
      split at h
      · rename_i hq
        cases h
        by_cases hk : (⟨a, ps.take (m + 1)⟩ : PyPath) = k
        · right
          subst hk
          refine ⟨?_, ?_, rfl, List.prefix_refl _⟩
          · rcases ih hacc ⟨a, ps.take (m + 1)⟩ with heq | hnew
            · rw [← heq]; exact hq
            · rw [hq] at hnew; exact absurd hnew.2.1 (by simp)
          · simp [lookupFS]
        · have hstep : lookupFS ((⟨⟨a, ps.take (m + 1)⟩, Entry.dir⟩ : PyPath × Entry) :: acc) k
              = lookupFS acc k := by
            simp only [lookupFS]
            rw [if_neg hk]
          rw [hstep]
          rcases ih hacc k with heq | hnew
          · exact Or.inl heq
          · exact Or.inr ⟨hnew.1, hnew.2.1, hnew.2.2.1, lift _ hnew.2.2.2⟩
      · cases h
        rcases ih hacc k with heq | hnew
        · exact Or.inl heq
        · exact Or.inr ⟨hnew.1, hnew.2.1, hnew.2.2.1, lift _ hnew.2.2.2⟩
      · split at h
        · cases h
          rcases ih hacc k with heq | hnew
          · exact Or.inl heq
          · exact Or.inr ⟨hnew.1, hnew.2.1, hnew.2.2.1, lift _ hnew.2.2.2⟩
        · exact absurd h (by simp)
      · exact absurd h (by simp)

theorem mkdirParents_frame {fs fs' : FSys} {p : PyPath}
    (h : mkdirParents fs p = .ok fs') :
    ∀ k, lookupFS fs' k = lookupFS fs k ∨
      (lookupFS fs k = none ∧ lookupFS fs' k = some .dir ∧
        k.absolute = p.absolute ∧ k.parts <+: p.parts) := by
  intro k
  rcases mkdirUpTo_frame h k with heq | hnew
  · exact Or.inl heq
  · rw [List.take_length] at hnew
    exact Or.inr hnew

theorem symlinkTo_ok {fs fs' : FSys} {dst src : PyPath}
    (h : symlinkTo fs dst src = .ok fs') :
    lookupFS fs dst = none ∧ fs' = (dst, .symlink src) :: fs := by
  rw [symlinkTo] at h
  split at h
  · exact absurd h (by simp)
  · rename_i hne
    cases h
    refine ⟨?_, rfl⟩
    rw [existsNoFollow] at hne
    cases hl : lookupFS fs dst with
    | none => rfl
    | some e => rw [hl] at hne; simp at hne

theorem createLink_ok {s : St} {src dst : PyPath} {v : Nat} {isDir : Bool} {s' : St}
    (h : createLink s src dst v isDir = (s', none)) :
    ∃ fs₁, mkdirParents s.fs (parentP dst) = .ok fs₁ ∧
      lookupFS fs₁ dst = none ∧
      s'.fs = (dst, .symlink src) :: fs₁ ∧
      s'.out = s.out ++ (if VerboseLevel.CREATE_LINK ≤ v then [.linking dst src isDir] else []) := by
  rw [createLink] at h
  split at h
  · exact absurd (congrArg Prod.snd h) (by simp)
  · rename_i fs₁ hmk
    split at h
    · exact absurd (congrArg Prod.snd h) (by simp)
    · rename_i fs₂ hsym
      obtain ⟨hfree, hcons⟩ := symlinkTo_ok hsym
      refine ⟨fs₁, hmk, hfree, ?_, ?_⟩
      · have h1 := congrArg Prod.fst h
        simp only at h1
        rw [← h1, hcons]
      · have h1 := congrArg Prod.fst h
        simp only at h1
        rw [← h1]
        by_cases hv : VerboseLevel.CREATE_LINK ≤ v <;> simp [hv]

/-- Separation of a single key `k` from the whole name family of a
destination `d`: no extension of `d` sits at or above `k`, and `k` does
not sit at or above `d`. -/
def sepFrom (d k : PyPath) : Prop :=
  (∀ o : Option Nat, ¬ underOrEq (extP d o) k) ∧ ¬ underOrEq k d

theorem sepFrom_of_pathSep {d k : PyPath} (h : pathSep d k = true) : sepFrom d k := by
  constructor
  · intro o
    exact (pathSep_sound h o none).1
  · exact (pathSep_sound h none none).2

theorem sepFrom_ext {d d' : PyPath} (h : pathSep d d' = true) (o : Option Nat) :
    sepFrom d (extP d' o) := by
  constructor
  · intro o'
    exact (pathSep_sound h o' o).1
  · exact (pathSep_sound h none o).2

theorem safe_link_noop {s : St} {src dst : PyPath} {v : Nat}
    (hd : dst.absolute = true) (hs : src.absolute = true)
    (hex : existsFollow s.fs src = true)
    (hok : linkOkCheck s.fs dst src = true) :
    safe_link s src dst v =
      (⟨s.fs, if VerboseLevel.LINK_OK ≤ v then
          s.out ++ [.linkOk dst src (isDirFollow s.fs src)] else s.out⟩,
        none) := by
  rw [safe_link, if_neg (by simp [hd]), if_neg (by simp [hs]), if_neg (by simp [hex]),
    if_pos hok]

theorem safe_link_ok_cases {s s' : St} {src dst : PyPath} {v : Nat}
    (h : safe_link s src dst v = (s', none)) :
    (s'.fs = s.fs ∧ linkOkCheck s.fs dst src = true ∧
      s'.out = s.out ++
        (if VerboseLevel.LINK_OK ≤ v then [.linkOk dst src (isDirFollow s.fs src)] else [])) ∨
    (∃ smid : St,
      ((smid = s ∧ existsNoFollow s.fs dst = false) ∨
        (∃ pb, safe_remove s dst v = (smid, .ok pb))) ∧
      createLink smid src dst v (isDirFollow s.fs src) = (s', none)) := by
  rw [safe_link] at h
  split at h
  · exact absurd (congrArg Prod.snd h) (by simp)
  · split at h
    · exact absurd (congrArg Prod.snd h) (by simp)
    · split at h
      · exact absurd (congrArg Prod.snd h) (by simp)
      · split at h
        · rename_i hok
          left
          have h1 := congrArg Prod.fst h
          simp only at h1
          refine ⟨by rw [← h1], hok, ?_⟩
          rw [← h1]
          by_cases hv : VerboseLevel.LINK_OK ≤ v <;> simp [hv]
        · split at h
          · rename_i hexd
            split at h
            · exact absurd (congrArg Prod.snd h) (by simp)
            · rename_i smid pb hrem
              exact Or.inr ⟨smid, Or.inr ⟨pb, hrem⟩, h⟩
          · rename_i hexd
            refine Or.inr ⟨s, Or.inl ⟨rfl, ?_⟩, h⟩
            simpa using hexd

theorem installStep_frame {s s' : St} {d : PyPath} {so : Option PyPath} {v : Nat}
    (h : installStep s d so v = (s', none)) {k : PyPath} (hsep : sepFrom d k) :
    lookupFS s'.fs k = lookupFS s.fs k := by
  have hd_ne_k : d ≠ k := fun hh => hsep.1 none (hh ▸ underOrEq_refl d)
  have hmkdir : ∀ {fsa fsb : FSys}, mkdirParents fsa (parentP d) = .ok fsb →
      lookupFS fsb k = lookupFS fsa k := by
    intro fsa fsb hmk
    rcases mkdirParents_frame hmk k with heq | hnew
    · exact heq
    · exact absurd ⟨hnew.2.2.1, hnew.2.2.2.trans (List.dropLast_prefix d.parts)⟩ hsep.2
  have hrem : ∀ {smid : St} {pb : PyPath}, safe_remove s d v = (smid, .ok pb) →
      lookupFS smid.fs k = lookupFS s.fs k := by
    intro smid pb hr
    obtain ⟨n, hpb, _, hfs, _, _, _⟩ := safe_remove_ok hr
    rw [hfs, hpb]
    exact lookup_renameFS_frame s.fs (hsep.1 none) (hsep.1 (some n))
  have hcl : ∀ {smid : St} {srcp : PyPath} {isDir : Bool},
      createLink smid srcp d v isDir = (s', none) →
      lookupFS s'.fs k = lookupFS smid.fs k := by
    intro smid srcp isDir hc
    obtain ⟨fs₁, hmk, _, hfs, _⟩ := createLink_ok hc
    rw [hfs]
    have hcons : lookupFS ((d, Entry.symlink srcp) :: fs₁) k = lookupFS fs₁ k := by
      simp only [lookupFS]
      rw [if_neg hd_ne_k]
    rw [hcons]
    exact hmkdir hmk
  cases so with
  | none =>
    rw [installStep] at h
    split at h
    · rcases hsr : safe_remove s d v with ⟨smid, r⟩
      rw [hsr] at h
      cases r with
      | error e => exact absurd (congrArg Prod.snd h) (by simp [errOf])
      | ok pb =>
        have h1 := congrArg Prod.fst h
        simp only at h1
        rw [← h1]
        exact hrem hsr
    · have h1 := congrArg Prod.fst h
      simp only at h1
      rw [← h1]
  | some srcp =>
    have hsl : safe_link s srcp d v = (s', none) := h
    rcases safe_link_ok_cases hsl with hnoop | ⟨smid, hmid, hc⟩
    · rw [hnoop.1]
    · have hk := hcl hc
      rcases hmid with ⟨rfl, _⟩ | ⟨pb, hr⟩
      · exact hk
      · rw [hk, hrem hr]

theorem pathSep_symm {a b : PyPath} (h : pathSep a b = true) : pathSep b a = true := by
  rw [pathSep] at h ⊢
  rcases (Bool.or_eq_true _ _).mp h with h1 | h2
  · apply (Bool.or_eq_true _ _).mpr
    left
    simpa [bne, BEq.comm] using h1
  · apply (Bool.or_eq_true _ _).mpr
    right
    have := (Bool.and_eq_true _ _).mp h2
    rw [Bool.and_eq_true]
    exact ⟨this.2, this.1⟩

theorem linkOkCheck_eq {fs : FSys} {dst src : PyPath} (h : linkOkCheck fs dst src = true) :
    lookupFS fs dst = some (.symlink src) := by
  rw [linkOkCheck] at h
  split at h
  · rename_i t heq
    have ht : t = src := of_decide_eq_true h
    rw [heq, ht]
  · simp at h

theorem installStep_post_link {s s' : St} {d src : PyPath} {v : Nat}
    (h : installStep s d (some src) v = (s', none)) :
    lookupFS s'.fs d = some (.symlink src) := by
  have hsl : safe_link s src d v = (s', none) := h
  rcases safe_link_ok_cases hsl with hnoop | ⟨smid, _, hc⟩
  · rw [hnoop.1]
    exact linkOkCheck_eq hnoop.2.1
  · obtain ⟨fs₁, _, _, hfs, _⟩ := createLink_ok hc
    rw [hfs]
    simp [lookupFS]

theorem installStep_post_rem {s s' : St} {d : PyPath} {v : Nat}
    (h : installStep s d none v = (s', none)) :
    lookupFS s'.fs d = none := by
  rw [installStep] at h
  split at h
  · rcases hsr : safe_remove s d v with ⟨smid, r⟩
    rw [hsr] at h
    cases r with
    | error e => exact absurd (congrArg Prod.snd h) (by simp [errOf])
    | ok pb =>
      have h1 := congrArg Prod.fst h
      simp only at h1
      rw [← h1]
      obtain ⟨n, hpb, _, hfs, _, _, _⟩ := safe_remove_ok hsr
      rw [hfs, hpb]
      exact lookup_renameFS_self s.fs d n
  · rename_i hne
    have h1 := congrArg Prod.fst h
    simp only at h1
    rw [← h1]
    simp only [existsNoFollow] at hne
    cases hl : lookupFS s.fs d with
    | none => rfl
    | some e => rw [hl] at hne; simp at hne

theorem resolveEntry_plain {fs : FSys} {p : PyPath} {e : Entry} (hl : lookupFS fs p = some e)
    (hpl : e.plainE = true) (fuel : Nat) : resolveEntry fs (fuel + 1) p = some e := by
  rw [resolveEntry, hl]
  cases e with
  | file c => rfl
  | dir => rfl
  | symlink t => simp [Entry.plainE] at hpl

theorem installStep_noop_link {s : St} {d src : PyPath} {v : Nat} {e : Entry}
    (hd : d.absolute = true) (hs : src.absolute = true)
    (hdst : lookupFS s.fs d = some (.symlink src))
    (hsrc : lookupFS s.fs src = some e) (hpl : e.plainE = true) :
    installStep s d (some src) v =
      (⟨s.fs, if VerboseLevel.LINK_OK ≤ v then
          s.out ++ [.linkOk d src (isDirFollow s.fs src)] else s.out⟩,
        none) := by
  have hex : existsFollow s.fs src = true := by
    rw [existsFollow, show (40 : Nat) = 39 + 1 from rfl, resolveEntry_plain hsrc hpl 39]
    rfl
  have hok : linkOkCheck s.fs d src = true := by
    rw [linkOkCheck, hdst]
    simp
  exact safe_link_noop hd hs hex hok

theorem installStep_noop_rem {s : St} {d : PyPath} {v : Nat}
    (hne : lookupFS s.fs d = none) :
    installStep s d none v = (s, none) := by
  rw [installStep]
  rw [if_neg (by simp [existsNoFollow, hne])]

theorem install_links_append (s : St) (L₁ L₂ : List (PyPath × Option PyPath)) (v : Nat) :
    install_links s (L₁ ++ L₂) v =
      match install_links s L₁ v with
      | (s', some e) => (s', some e)
      | (s', none) => install_links s' L₂ v := by
  induction L₁ generalizing s with
  | nil => rfl
  | cons a t ih =>
    obtain ⟨dp, sp⟩ := a
    show install_links s ((dp, sp) :: (t ++ L₂)) v = _
    rw [install_links]
    conv_rhs => rw [install_links]
    rcases hst : installStep s dp sp v with ⟨s₁, r⟩
    cases r with
    | some e => rfl
    | none => exact ih s₁

theorem install_links_cons_ok {s s₂ : St} {d : PyPath} {so : Option PyPath}
    {rest : List (PyPath × Option PyPath)} {v : Nat}
    (h : install_links s ((d, so) :: rest) v = (s₂, none)) :
    ∃ s₁, installStep s d so v = (s₁, none) ∧ install_links s₁ rest v = (s₂, none) := by
  rw [install_links] at h
  rcases hst : installStep s d so v with ⟨s₁, r⟩
  rw [hst] at h
  cases r with
  | some e => exact absurd (congrArg Prod.snd h) (by simp)
  | none => exact ⟨s₁, rfl, h⟩

theorem install_links_frame {L : List (PyPath × Option PyPath)} :
    ∀ {s s₂ : St} {v : Nat}, install_links s L v = (s₂, none) →
      ∀ {k : PyPath}, (∀ a ∈ L, sepFrom a.1 k) →
      lookupFS s₂.fs k = lookupFS s.fs k := by
  induction L with
  | nil =>
    intro s s₂ v h k _
    have h1 : s = s₂ := congrArg Prod.fst h
    rw [← h1]
  | cons a t ih =>
    intro s s₂ v h k hsep
    obtain ⟨dp, sp⟩ := a
    obtain ⟨s₁, hst, hrest⟩ := install_links_cons_ok h
    rw [ih hrest (fun b hb => hsep b (List.mem_cons_of_mem _ hb))]
    exact installStep_frame hst (hsep (dp, sp) (List.mem_cons_self _ _))

/-- After a successful run over pairwise-separated entries with plain
(non-symlink) sources, every link destination holds a symlink with the
literal source as target, every removal destination is gone, and every
source is still present and plain. -/
theorem install_post_facts {L : List (PyPath × Option PyPath)} :
    ∀ {s s₂ : St} {v : Nat},
      (∀ a ∈ L, ∀ srcp, a.2 = some srcp →
        ∃ e, lookupFS s.fs srcp = some e ∧ e.plainE = true) →
      List.Pairwise (fun a b => pathSep a.1 b.1 = true) L →
      (∀ a ∈ L, ∀ b ∈ L, ∀ srcp, b.2 = some srcp → pathSep a.1 srcp = true) →
      install_links s L v = (s₂, none) →
      ∀ a ∈ L,
        (∀ srcp, a.2 = some srcp →
          lookupFS s₂.fs a.1 = some (.symlink srcp) ∧
          ∃ e, lookupFS s₂.fs srcp = some e ∧ e.plainE = true) ∧
        (a.2 = none → lookupFS s₂.fs a.1 = none) := by
  induction L with
  | nil =>
    intro s s₂ v _ _ _ _ a ha
    exact absurd ha (List.not_mem_nil a)
  | cons hd t ih =>
    intro s s₂ v hplain hpair hds h a ha
    obtain ⟨d₀, so₀⟩ := hd
    obtain ⟨s₁, hst, hrest⟩ := install_links_cons_ok h
    have hpair' := List.pairwise_cons.mp hpair
    have hsept : ∀ b ∈ t, sepFrom b.1 d₀ := fun b hb =>
      sepFrom_of_pathSep (pathSep_symm (hpair'.1 b hb))
    rcases List.mem_cons.mp ha with rfl | hat
    · constructor
      · intro srcp hsrcp
        simp only at hsrcp
        subst hsrcp
        have hpost := installStep_post_link hst
        have hkeep : lookupFS s₂.fs d₀ = lookupFS s₁.fs d₀ :=
          install_links_frame hrest hsept
        refine ⟨by rw [hkeep, hpost], ?_⟩
        obtain ⟨e, he, hpl⟩ := hplain (d₀, some srcp) (List.mem_cons_self _ _) srcp rfl
        have hsep₀ : sepFrom d₀ srcp :=
          sepFrom_of_pathSep (hds (d₀, some srcp) (List.mem_cons_self _ _)
            (d₀, some srcp) (List.mem_cons_self _ _) srcp rfl)
        have h1 : lookupFS s₁.fs srcp = lookupFS s.fs srcp := installStep_frame hst hsep₀
        have h2 : lookupFS s₂.fs srcp = lookupFS s₁.fs srcp :=
          install_links_frame hrest (fun b hb =>
            sepFrom_of_pathSep (hds b (List.mem_cons_of_mem _ hb)
              (d₀, some srcp) (List.mem_cons_self _ _) srcp rfl))
        exact ⟨e, by rw [h2, h1, he], hpl⟩
      · intro hnone
        simp only at hnone
        subst hnone
        have hpost := installStep_post_rem hst
        rw [install_links_frame hrest hsept, hpost]
    · refine ih ?_ hpair'.2 ?_ hrest a hat
      · intro b hb srcp hsrcp
        obtain ⟨e, he, hpl⟩ := hplain b (List.mem_cons_of_mem _ hb) srcp hsrcp
        have hsep₀ : sepFrom d₀ srcp :=
          sepFrom_of_pathSep (hds (d₀, so₀) (List.mem_cons_self _ _)
            b (List.mem_cons_of_mem _ hb) srcp hsrcp)
        exact ⟨e, by rw [installStep_frame hst hsep₀, he], hpl⟩
      · intro b hb c hc srcp hsrcp
        exact hds b (List.mem_cons_of_mem _ hb) c (List.mem_cons_of_mem _ hc) srcp hsrcp

/-- A run over entries that are all already in their target configuration
is accepted and leaves the filesystem untouched. -/
theorem install_noop {L : List (PyPath × Option PyPath)} :
    ∀ {s : St} {v : Nat},
      (∀ a ∈ L, a.1.absolute = true ∧ ∀ srcp, a.2 = some srcp → srcp.absolute = true) →
      (∀ a ∈ L,
        (∀ srcp, a.2 = some srcp →
          lookupFS s.fs a.1 = some (.symlink srcp) ∧
          ∃ e, lookupFS s.fs srcp = some e ∧ e.plainE = true) ∧
        (a.2 = none → lookupFS s.fs a.1 = none)) →
      (install_links s L v).2 = none ∧ (install_links s L v).1.fs = s.fs := by
  induction L with
  | nil => intro s v _ _; exact ⟨rfl, rfl⟩
  | cons hd t ih =>
    intro s v habs hfacts
    obtain ⟨d₀, so₀⟩ := hd
    obtain ⟨habs₀, habs₀s⟩ := habs (d₀, so₀) (List.mem_cons_self _ _)
    have habs' : ∀ a ∈ t, a.1.absolute = true ∧
        ∀ srcp, a.2 = some srcp → srcp.absolute = true :=
      fun b hb => habs b (List.mem_cons_of_mem _ hb)
    cases so₀ with
    | none =>
      have hnone := (hfacts (d₀, none) (List.mem_cons_self _ _)).2 rfl
      have hstep := installStep_noop_rem (v := v) hnone
      have hred : install_links s ((d₀, none) :: t) v = install_links s t v := by
        rw [install_links, hstep]
      rw [hred]
      exact ih habs' (fun b hb => hfacts b (List.mem_cons_of_mem _ hb))
    | some srcp =>
      obtain ⟨hdst, e, he, hpl⟩ :=
        (hfacts (d₀, some srcp) (List.mem_cons_self _ _)).1 srcp rfl
      have hstep := installStep_noop_link (v := v) habs₀ (habs₀s srcp rfl) hdst he hpl
      have hred : install_links s ((d₀, some srcp) :: t) v =
          install_links ⟨s.fs, if VerboseLevel.LINK_OK ≤ v then
            s.out ++ [.linkOk d₀ srcp (isDirFollow s.fs srcp)] else s.out⟩ t v := by
        rw [install_links, hstep]
      rw [hred]
      exact ih habs' (fun b hb => hfacts b (List.mem_cons_of_mem _ hb))

/-! ## Claim C1 -/

/-- C1 (amended): applying the same resolved link specification twice in a
row is idempotent provided the entries are non-interfering: the name
families (destination plus its backup names) of distinct destinations are
pairwise separated, every destination's family is separated from every
source path, and every source is a regular file or directory.  Then the
second run succeeds with zero filesystem mutations: at its start every
link destination is a symlink whose literal target is the source (the
no-op branch), and every removal destination no longer exists. -/
theorem C1_second_run_noop {L : List (PyPath × Option PyPath)} {s₀ s₁ : St} {v : Nat}
    (habs : ∀ a ∈ L, (a.1.absolute && a.2.all (·.absolute)) = true)
    (hplain : ∀ a ∈ L, a.2.all (fun srcp => (lookupFS s₀.fs srcp).any Entry.plainE) = true)
    (hpair : List.Pairwise (fun a b => pathSep a.1 b.1 = true) L)
    (hds : ∀ a ∈ L, ∀ b ∈ L, b.2.all (fun srcp => pathSep a.1 srcp) = true)
    (hrun : install_links s₀ L v = (s₁, none)) :
    (install_links s₁ L v).2 = none ∧
    (install_links s₁ L v).1.fs = s₁.fs ∧
    (∀ a ∈ L, ∀ srcp, a.2 = some srcp → lookupFS s₁.fs a.1 = some (.symlink srcp)) ∧
    (∀ a ∈ L, a.2 = none → lookupFS s₁.fs a.1 = none) := by
  have hplain' : ∀ a ∈ L, ∀ srcp, a.2 = some srcp →
      ∃ e, lookupFS s₀.fs srcp = some e ∧ e.plainE = true := by
    intro a ha srcp hs
    have h1 := hplain a ha
    rw [hs] at h1
    simp only [Option.all] at h1
    cases hl : lookupFS s₀.fs srcp with
    | none => rw [hl] at h1; simp [Option.any] at h1
    | some e =>
      rw [hl] at h1
      simp only [Option.any] at h1
      exact ⟨e, rfl, h1⟩
  have habs' : ∀ a ∈ L, a.1.absolute = true ∧
      ∀ srcp, a.2 = some srcp → srcp.absolute = true := by
    intro a ha
    have h1 := (Bool.and_eq_true _ _).mp (habs a ha)
    refine ⟨h1.1, fun srcp hs => ?_⟩
    have h2 := h1.2
    rw [hs] at h2
    simpa [Option.all] using h2
  have hds' : ∀ a ∈ L, ∀ b ∈ L, ∀ srcp, b.2 = some srcp → pathSep a.1 srcp = true := by
    intro a ha b hb srcp hs
    have h1 := hds a ha b hb
    rw [hs] at h1
    simpa [Option.all] using h1
  have hfacts := install_post_facts hplain' hpair hds' hrun
  have hnoop := install_noop (v := v) habs' hfacts
  exact ⟨hnoop.1, hnoop.2,
    fun a ha srcp hs => ((hfacts a ha).1 srcp hs).1,
    fun a ha hn => (hfacts a ha).2 hn⟩

/-- A separated two-entry specification used to exercise the idempotence
theorem: link `/h/.bashrc -> /s/bashrc`, remove `/h/.old`. -/
def wFs : FSys := [(⟨true, ["s", "bashrc"]⟩, .file "b"), (⟨true, ["h"]⟩, .dir),
  (⟨true, ["h", ".old"]⟩, .file "o")]

def wL : List (PyPath × Option PyPath) :=
  [(⟨true, ["h", ".bashrc"]⟩, some ⟨true, ["s", "bashrc"]⟩), (⟨true, ["h", ".old"]⟩, none)]

theorem C1_second_run_noop_witness :
    (install_links (install_links ⟨wFs, []⟩ wL 3).1 wL 3).2 = none ∧
    (install_links (install_links ⟨wFs, []⟩ wL 3).1 wL 3).1.fs
      = (install_links ⟨wFs, []⟩ wL 3).1.fs := by
  have h := @C1_second_run_noop wL ⟨wFs, []⟩ (install_links ⟨wFs, []⟩ wL 3).1 3
    (by decide) (by decide) (by decide) (by decide) (by decide)
  exact ⟨h.1, h.2.1⟩

/-- Interfering (nested) destinations for the counterexample: one entry
links `/h/a/b`, a later entry removes `/h/a`.  Both destinations pass the
scope-containment check below any `dst_dir` above `/h`. -/
def c1fs : FSys := [(⟨true, ["s", "x"]⟩, .file "x"), (⟨true, ["h"]⟩, .dir)]

def c1L : List (PyPath × Option PyPath) :=
  [(⟨true, ["h", "a", "b"]⟩, some ⟨true, ["s", "x"]⟩), (⟨true, ["h", "a"]⟩, none)]

/-- C1 as stated is false: for the nested specification `c1L` both runs
succeed, yet the second run mutates the filesystem and produces one more
backup (`/h/a.bkp_1`), because the removal entry undoes the link entry's
work on every run. -/
theorem C1_counterexample :
    (install_links ⟨c1fs, []⟩ c1L 0).2 = none ∧
    (install_links (install_links ⟨c1fs, []⟩ c1L 0).1 c1L 0).2 = none ∧
    (install_links (install_links ⟨c1fs, []⟩ c1L 0).1 c1L 0).1.fs
      ≠ (install_links ⟨c1fs, []⟩ c1L 0).1.fs ∧
    lookupFS (install_links ⟨c1fs, []⟩ c1L 0).1.fs (bkpName ⟨true, ["h", "a"]⟩ 1) = none ∧
    lookupFS (install_links (install_links ⟨c1fs, []⟩ c1L 0).1 c1L 0).1.fs
      (bkpName ⟨true, ["h", "a"]⟩ 1) = some .dir := by
  decide

/-! ## Claim C2: backup facts -/

theorem bkpName_ne_self (p : PyPath) (n : Nat) : bkpName p n ≠ p := by
  intro h
  exact bkpParts_ne p.parts n (congrArg PyPath.parts h)

theorem not_underOrEq_self_bkp {p : PyPath} (hp : p.parts ≠ []) (m : Nat) :
    ¬ underOrEq p (bkpName p m) := by
  intro hu
  have hlen : (bkpParts p.parts m).length = p.parts.length := bkpParts_length hp m
  have heq : p.parts = bkpParts p.parts m := hu.2.eq_of_length
    (by rw [show (bkpName p m).parts = bkpParts p.parts m from rfl, hlen])
  exact bkpParts_ne p.parts m heq.symm

theorem underOrEq_bkp_bkp {p : PyPath} (hp : p.parts ≠ []) {n m : Nat}
    (h : underOrEq (bkpName p n) (bkpName p m)) : bkpName p n = bkpName p m := by
  have hlen : (bkpParts p.parts n).length = (bkpParts p.parts m).length := by
    rw [bkpParts_length hp, bkpParts_length hp]
  exact pyPathEq rfl (h.2.eq_of_length hlen)

/-- A single entry whose destination holds a plain (non-symlink) entry
relocates it to a fresh backup name of the destination, and leaves every
other backup name of the destination untouched. -/
theorem installStep_backup {s s' : St} {d : PyPath} {so : Option PyPath} {v : Nat} {e : Entry}
    (h : installStep s d so v = (s', none))
    (hd : lookupFS s.fs d = some e) (hpl : e.plainE = true) (hne : d.parts ≠ []) :
    ∃ n, lookupFS s.fs (bkpName d n) = none ∧
      lookupFS s'.fs (bkpName d n) = some e ∧
      ∀ m, bkpName d m ≠ bkpName d n →
        lookupFS s'.fs (bkpName d m) = lookupFS s.fs (bkpName d m) := by
  have hrem : ∀ {smid : St} {pb : PyPath}, safe_remove s d v = (smid, .ok pb) →
      ∃ n, pb = bkpName d n ∧ lookupFS s.fs (bkpName d n) = none ∧
        lookupFS smid.fs (bkpName d n) = some e ∧
        ∀ m, bkpName d m ≠ bkpName d n →
          lookupFS smid.fs (bkpName d m) = lookupFS s.fs (bkpName d m) := by
    intro smid pb hr
    obtain ⟨n, hpb, hfree, hfs, _, _, _⟩ := safe_remove_ok hr
    subst hpb
    refine ⟨n, rfl, hfree, ?_, ?_⟩
    · rw [hfs, lookup_renameFS_target s.fs n hfree, hd]
    · intro m hm
      rw [hfs]
      apply lookup_renameFS_frame
      · exact not_underOrEq_self_bkp hne m
      · intro hu
        exact hm (underOrEq_bkp_bkp hne hu).symm
  have hcl : ∀ {smid : St} {srcp : PyPath} {isDir : Bool} (j : Nat),
      createLink smid srcp d v isDir = (s', none) →
      lookupFS s'.fs (bkpName d j) = lookupFS smid.fs (bkpName d j) := by
    intro smid srcp isDir j hc
    obtain ⟨fs₁, hmk, _, hfs, _⟩ := createLink_ok hc
    rw [hfs]
    have hdne : d ≠ bkpName d j := fun hh => bkpName_ne_self d j hh.symm
    have hcons : lookupFS ((d, Entry.symlink srcp) :: fs₁) (bkpName d j)
        = lookupFS fs₁ (bkpName d j) := by
      simp only [lookupFS]
      rw [if_neg hdne]
    rw [hcons]
    rcases mkdirParents_frame hmk (bkpName d j) with heq | hnew
    · exact heq
    · exfalso
      have hlenle := hnew.2.2.2.length_le
      have h1 : (bkpName d j).parts.length = d.parts.length := bkpParts_length hne j
      have h2 : (parentP d).parts.length = d.parts.length - 1 :=
        List.length_dropLast d.parts
      have hpos : 0 < d.parts.length := List.length_pos.mpr hne
      omega
  cases so with
  | none =>
    rw [installStep] at h
    split at h
    · rcases hsr : safe_remove s d v with ⟨smid, r⟩
      rw [hsr] at h
      cases r with
      | error err => exact absurd (congrArg Prod.snd h) (by simp [errOf])
      | ok pb =>
        have h1 : smid = s' := congrArg Prod.fst h
        obtain ⟨n, _, hfree, hval, hoth⟩ := hrem hsr
        exact ⟨n, hfree, h1 ▸ hval, fun m hm => h1 ▸ hoth m hm⟩
    · rename_i hnex
      rw [existsNoFollow, hd] at hnex
      simp at hnex
  | some srcp =>
    have hsl : safe_link s srcp d v = (s', none) := h
    rcases safe_link_ok_cases hsl with hnoop | ⟨smid, hmid, hc⟩
    · have := linkOkCheck_eq hnoop.2.1
      rw [hd] at this
      have he := Option.some_inj.mp this
      rw [he] at hpl
      simp [Entry.plainE] at hpl
    · rcases hmid with ⟨rfl, hnex⟩ | ⟨pb, hr⟩
      · rw [existsNoFollow, hd] at hnex
        simp at hnex
      · obtain ⟨n, _, hfree, hval, hoth⟩ := hrem hr
        refine ⟨n, hfree, ?_, ?_⟩
        · rw [hcl n hc, hval]
        · intro m hm
          rw [hcl m hc, hoth m hm]

/-- After a successful run over pairwise-separated, non-root destinations,
every destination that pre-existed as a regular file or directory has been
relocated to exactly one fresh backup name, with all its other backup
names untouched. -/
theorem install_backup_facts {L : List (PyPath × Option PyPath)} :
    ∀ {s s₂ : St} {v : Nat},
      List.Pairwise (fun a b => pathSep a.1 b.1 = true) L →
      (∀ a ∈ L, a.1.parts ≠ []) →
      install_links s L v = (s₂, none) →
      ∀ a ∈ L, ∀ e, lookupFS s.fs a.1 = some e → e.plainE = true →
        ∃ n, lookupFS s.fs (bkpName a.1 n) = none ∧
          lookupFS s₂.fs (bkpName a.1 n) = some e ∧
          ∀ m, bkpName a.1 m ≠ bkpName a.1 n →
            lookupFS s₂.fs (bkpName a.1 m) = lookupFS s.fs (bkpName a.1 m) := by
  induction L with
  | nil =>
    intro s s₂ v _ _ _ a ha
    exact absurd ha (List.not_mem_nil a)
  | cons hd t ih =>
    intro s s₂ v hpair hne h a ha e hae hpl
    obtain ⟨d₀, so₀⟩ := hd
    obtain ⟨s₁, hst, hrest⟩ := install_links_cons_ok h
    have hpair' := List.pairwise_cons.mp hpair
    rcases List.mem_cons.mp ha with rfl | hat
    · obtain ⟨n, hfree, hval, hoth⟩ :=
        installStep_backup hst hae hpl (hne _ (List.mem_cons_self _ _))
    -- later entries never touch this destination's backup family
      have hsepslot : ∀ j, ∀ b ∈ t, sepFrom b.1 (bkpName d₀ j) := fun j b hb =>
        sepFrom_ext (pathSep_symm (hpair'.1 b hb)) (some j)
      refine ⟨n, hfree, ?_, ?_⟩
      · rw [install_links_frame hrest (hsepslot n), hval]
      · intro m hm
        rw [install_links_frame hrest (hsepslot m), hoth m hm]
    · have hsepd : sepFrom d₀ a.1 := sepFrom_of_pathSep (hpair'.1 a hat)
      have ha1 : lookupFS s₁.fs a.1 = some e := by
        rw [installStep_frame hst hsepd, hae]
      obtain ⟨n, hfree₁, hval, hoth⟩ := ih hpair'.2
        (fun b hb => hne b (List.mem_cons_of_mem _ hb)) hrest a hat e ha1 hpl
      have hsl : ∀ j, lookupFS s₁.fs (bkpName a.1 j) = lookupFS s.fs (bkpName a.1 j) :=
        fun j => installStep_frame hst (sepFrom_ext (hpair'.1 a hat) (some j))
      refine ⟨n, by rw [← hsl n]; exact hfree₁, hval, ?_⟩
      intro m hm
      rw [hoth m hm, hsl m]

/-- C2 (amended): in a run over pairwise-separated, non-root destinations,
every destination that pre-existed as a regular file or directory survives
unchanged at exactly one backup name of that destination — a name that was
previously unoccupied — while every other backup name of the destination
keeps its old lookup; and backup names of separated destinations can never
collide.  (Separation is needed: a later destination may itself be named
like a backup slot, or lie above another destination, and then the
displaced entry ends up outside the `dest.bkp_N` family, as the
counterexample shows.) -/
theorem C2_no_loss {L : List (PyPath × Option PyPath)} {s₀ s₂ : St} {v : Nat}
    (hpair : List.Pairwise (fun a b => pathSep a.1 b.1 = true) L)
    (hne : ∀ a ∈ L, a.1.parts ≠ [])
    (hrun : install_links s₀ L v = (s₂, none)) :
    (∀ a ∈ L, ∀ e, lookupFS s₀.fs a.1 = some e → e.plainE = true →
      ∃ n, lookupFS s₀.fs (bkpName a.1 n) = none ∧
        lookupFS s₂.fs (bkpName a.1 n) = some e ∧
        ∀ m, bkpName a.1 m ≠ bkpName a.1 n →
          lookupFS s₂.fs (bkpName a.1 m) = lookupFS s₀.fs (bkpName a.1 m)) ∧
    (∀ a ∈ L, ∀ b ∈ L, a ≠ b → ∀ n m, bkpName a.1 n ≠ bkpName b.1 m) := by
  constructor
  · exact install_backup_facts hpair hne hrun
  · intro a ha b hb hab n m
    have hsym : Symmetric (fun x y : PyPath × Option PyPath => pathSep x.1 y.1 = true) :=
      fun x y hxy => pathSep_symm hxy
    have hsep := hpair.forall hsym ha hb hab
    exact pathSep_ne hsep (some n) (some m)

theorem C2_no_loss_witness :
    bkpName ⟨true, ["h", ".bashrc"]⟩ 0 ≠ bkpName ⟨true, ["h", ".old"]⟩ 0 := by
  have h := @C2_no_loss wL ⟨wFs, []⟩ (install_links ⟨wFs, []⟩ wL 3).1 3
    (by decide) (by decide) (by decide)
  exact h.2 (⟨true, ["h", ".bashrc"]⟩, some ⟨true, ["s", "bashrc"]⟩) (by decide)
    (⟨true, ["h", ".old"]⟩, none) (by decide) (by decide) 0 0

theorem digitChar_ne_dot {d : Nat} (hd : d < 10) : digitChar d ≠ Char.ofNat 46 := by
  interval_cases d <;> decide

theorem natReprAux_mem : ∀ (f n : Nat) (acc : List Char) (c : Char),
    c ∈ natReprAux f n acc → c ∈ acc ∨ ∃ d, d < 10 ∧ c = digitChar d := by
  intro f
  induction f with
  | zero =>
    intro n acc c hc
    rw [natReprAux] at hc
    exact Or.inl hc
  | succ f ih =>
    intro n acc c hc
    rw [natReprAux] at hc
    split at hc
    · rcases List.mem_cons.mp hc with h1 | h2
      · exact Or.inr ⟨n, by assumption, h1⟩
      · exact Or.inl h2
    · rcases ih (n / 10) (digitChar (n % 10) :: acc) c hc with h1 | h2
      · rcases List.mem_cons.mp h1 with h3 | h4
        · exact Or.inr ⟨n % 10, Nat.mod_lt n (by omega), h3⟩
        · exact Or.inl h4
      · exact Or.inr h2

/-- The decimal rendering of a natural number contains no `.` character,
so a backup name of a backup name is never a backup name of the original
path. -/
theorem natRepr_no_dot (n : Nat) : Char.ofNat 46 ∉ (natRepr n).data := by
  intro hc
  rcases natReprAux_mem (n + 1) n [] (Char.ofNat 46) hc with h1 | ⟨d, hd, he⟩
  · simp at h1
  · exact digitChar_ne_dot hd he.symm

/-- Interfering destinations for the C2 counterexample: `/h/a` pre-exists
as a regular file, and a second entry's destination `/h/a.bkp_0` is named
exactly like the first backup slot of `/h/a`. -/
def c2fs : FSys := [(⟨true, ["h"]⟩, .dir), (⟨true, ["h", "a"]⟩, .file "X"),
  (⟨true, ["s", "x"]⟩, .file "sx"), (⟨true, ["s", "y"]⟩, .file "sy")]

def c2L : List (PyPath × Option PyPath) :=
  [(⟨true, ["h", "a"]⟩, some ⟨true, ["s", "x"]⟩),
   (⟨true, ["h", "a.bkp_0"]⟩, some ⟨true, ["s", "y"]⟩)]

/-- C2 as stated is false: the run over `c2L` succeeds, yet the original
regular file that pre-existed at the destination `/h/a` ends up at
`/h/a.bkp_0.bkp_0` — which is not of the form `/h/a.bkp_N` for any `N` —
because the second entry displaced the first entry's backup. -/
theorem C2_counterexample :
    (install_links ⟨c2fs, []⟩ c2L 0).2 = none ∧
    lookupFS (install_links ⟨c2fs, []⟩ c2L 0).1.fs ⟨true, ["h", "a.bkp_0.bkp_0"]⟩
      = some (.file "X") ∧
    ¬ ∃ n, lookupFS (install_links ⟨c2fs, []⟩ c2L 0).1.fs (bkpName ⟨true, ["h", "a"]⟩ n)
      = some (.file "X") := by
  refine ⟨by decide, by decide, ?_⟩
  intro ⟨n, hn⟩
  have hfs : (install_links ⟨c2fs, []⟩ c2L 0).1.fs =
      [(⟨true, ["h", "a.bkp_0"]⟩, .symlink ⟨true, ["s", "y"]⟩),
       (⟨true, ["h", "a"]⟩, .symlink ⟨true, ["s", "x"]⟩),
       (⟨true, ["h"]⟩, .dir),
       (⟨true, ["h", "a.bkp_0.bkp_0"]⟩, .file "X"),
       (⟨true, ["s", "x"]⟩, .file "sx"),
       (⟨true, ["s", "y"]⟩, .file "sy")] := by decide
  rw [hfs] at hn
  simp only [lookupFS] at hn
  split at hn
  · exact absurd hn (by decide)
  split at hn
  · exact absurd hn (by decide)
  split at hn
  · exact absurd hn (by decide)
  split at hn
  · rename_i hkey
    have hparts := congrArg PyPath.parts hkey
    have hred : (bkpName (⟨true, ["h", "a"]⟩ : PyPath) n).parts
        = ["h", "a" ++ bkpSuffix n] := rfl
    rw [hred] at hparts
    simp only [List.cons.injEq, and_true] at hparts
    have hstr : "a.bkp_0.bkp_0" = "a" ++ bkpSuffix n := hparts.2
    have hdata := congrArg String.data hstr
    rw [show ("a" ++ bkpSuffix n : String) = "a" ++ (".bkp_" ++ natRepr n) from rfl,
      String.data_append, String.data_append] at hdata
    have hlhs : ("a.bkp_0.bkp_0" : String).data
        = ("a" : String).data ++ ((".bkp_" : String).data
            ++ (['0', Char.ofNat 46, 'b', 'k', 'p', '_', '0'] : List Char)) := by decide
    rw [hlhs] at hdata
    have hcancel := List.append_cancel_left (List.append_cancel_left hdata)
    apply natRepr_no_dot n
    rw [← hcancel]
    decide
  split at hn
  · exact absurd hn (by decide)
  split at hn
  · exact absurd hn (by decide)
  · exact absurd hn (by decide)

/-! ## Claims C3, C5, C6, C7, C8, C10 -/

/-- C3: on an existing absolute path `p`, `safe_remove` renames `p` to
`p.bkp_N` for the smallest `N` whose name has no filesystem entry
(checked without following symlinks), and returns that new path.  The
bound `N ≤ |fs|` is the fuel-adequacy side condition of the embedding
(the Python search is an unbounded `count()` loop). -/
theorem C3_backup_least_free {s : St} {p : PyPath} {v N : Nat}
    (habs : p.absolute = true) (hex : existsNoFollow s.fs p = true)
    (hocc : ∀ i, i < N → existsNoFollow s.fs (bkpName p i) = true)
    (hfree : existsNoFollow s.fs (bkpName p N) = false)
    (hfuel : N ≤ s.fs.length) :
    safe_remove s p v =
      (⟨renameFS s.fs p (bkpName p N),
        s.out ++ if VerboseLevel.RENAME_FILE ≤ v then [.rename p (bkpName p N)] else []⟩,
        .ok (bkpName p N)) :=
  safe_remove_eval habs hex hocc hfree hfuel

/-- The C3 scenario: `/h/f` exists together with `f.bkp_0`..`f.bkp_4`. -/
def c3fs : FSys :=
  [(⟨true, ["h", "f"]⟩, .file "f"),
   (⟨true, ["h", "f.bkp_0"]⟩, .file "0"), (⟨true, ["h", "f.bkp_1"]⟩, .file "1"),
   (⟨true, ["h", "f.bkp_2"]⟩, .file "2"), (⟨true, ["h", "f.bkp_3"]⟩, .file "3"),
   (⟨true, ["h", "f.bkp_4"]⟩, .file "4")]

theorem C3_backup_least_free_witness :
    safe_remove ⟨c3fs, []⟩ ⟨true, ["h", "f"]⟩ 1 =
      (⟨renameFS c3fs ⟨true, ["h", "f"]⟩ (bkpName ⟨true, ["h", "f"]⟩ 5),
        [] ++ if VerboseLevel.RENAME_FILE ≤ 1 then
          [.rename ⟨true, ["h", "f"]⟩ (bkpName ⟨true, ["h", "f"]⟩ 5)] else []⟩,
        .ok (bkpName ⟨true, ["h", "f"]⟩ 5)) :=
  C3_backup_least_free (by decide) (by decide) (by decide) (by decide) (by decide)

/-- C5: `safe_remove` on an absolute path with no filesystem entry
(checked without following the final symlink) fails with the
precondition `ValueError` and performs no mutation and prints nothing;
and the post-rename integrity check fails with the fatal `RuntimeError`
whenever the original path still exists. -/
theorem C5_backup_contract {s t : St} {p q pb : PyPath} {v : Nat}
    (hpabs : p.absolute = true)
    (hmiss : existsNoFollow s.fs p = false)
    (hstill : existsNoFollow t.fs q = true) :
    safe_remove s p v = (s, .error (.doesNotExist p)) ∧
    postRenameCheck t.fs q pb = .error (.failedToMove q) := by
  constructor
  · rw [safe_remove, if_neg (by simp [hpabs]), if_pos (by simp [hmiss])]
  · rw [postRenameCheck, if_pos hstill]

theorem C5_backup_contract_witness :
    safe_remove ⟨[(⟨true, ["h"]⟩, .dir)], []⟩ ⟨true, ["h", "gone"]⟩ 3
      = (⟨[(⟨true, ["h"]⟩, .dir)], []⟩, .error (.doesNotExist ⟨true, ["h", "gone"]⟩)) ∧
    postRenameCheck [(⟨true, ["h"]⟩, .dir)] ⟨true, ["h"]⟩ ⟨true, ["h.bkp_0"]⟩
      = .error (.failedToMove ⟨true, ["h"]⟩) :=
  @C5_backup_contract ⟨[(⟨true, ["h"]⟩, .dir)], []⟩ ⟨[(⟨true, ["h"]⟩, .dir)], []⟩
    ⟨true, ["h", "gone"]⟩ ⟨true, ["h"]⟩ ⟨true, ["h.bkp_0"]⟩ 3
    (by decide) (by decide) (by decide)

/-- C6: `safe_link` whose source does not exist (following symlinks)
fails with the `SourceMissingError` before any mutation — even when the
destination is already the correct symlink — and the failure aborts the
whole remaining batch. -/
theorem C6_source_missing_fatal {s : St} {src dst : PyPath} {v : Nat}
    (hd : dst.absolute = true) (hs : src.absolute = true)
    (hmiss : existsFollow s.fs src = false) :
    safe_link s src dst v = (s, some (.srcNotFound src)) ∧
    ∀ rest : List (PyPath × Option PyPath),
      install_links s ((dst, some src) :: rest) v = (s, some (.srcNotFound src)) := by
  have h1 : safe_link s src dst v = (s, some (.srcNotFound src)) := by
    rw [safe_link, if_neg (by simp [hd]), if_neg (by simp [hs]), if_pos (by simp [hmiss])]
  refine ⟨h1, fun rest => ?_⟩
  rw [install_links]
  have h2 : installStep s dst (some src) v = (s, some (.srcNotFound src)) := h1
  rw [h2]

theorem C6_source_missing_fatal_witness :
    install_links
        ⟨[(⟨true, ["h", "l"]⟩, .symlink ⟨true, ["s", "m"]⟩)], []⟩
        [(⟨true, ["h", "l"]⟩, some ⟨true, ["s", "m"]⟩),
         (⟨true, ["h", "x"]⟩, none)] 3
      = (⟨[(⟨true, ["h", "l"]⟩, .symlink ⟨true, ["s", "m"]⟩)], []⟩,
          some (.srcNotFound ⟨true, ["s", "m"]⟩)) :=
  (C6_source_missing_fatal (by decide) (by decide) (by decide)).2
    [(⟨true, ["h", "x"]⟩, none)]

/-- C7: a removal entry whose destination does not exist (checked without
following symlinks) performs no filesystem mutation and emits no notice
at any verbosity; one whose destination exists is handed to the backup
primitive, whose outcome (state and error) it propagates unchanged. -/
theorem C7_removal_semantics {s t : St} {d dd : PyPath} {v w : Nat}
    (hne : lookupFS s.fs d = none)
    (hex : existsNoFollow t.fs dd = true) :
    install_links s [(d, none)] v = (s, none) ∧
    installStep t dd none w = ((safe_remove t dd w).1, errOf (safe_remove t dd w).2) := by
  constructor
  · rw [install_links, installStep_noop_rem hne]
    rfl
  · rw [installStep, if_pos (by simp [hex])]

theorem C7_removal_semantics_witness :
    install_links ⟨[(⟨true, ["h"]⟩, .dir)], []⟩ [(⟨true, ["h", "gone"]⟩, none)] 3
      = (⟨[(⟨true, ["h"]⟩, .dir)], []⟩, none) ∧
    installStep ⟨[(⟨true, ["h", "f"]⟩, .file "f")], []⟩ ⟨true, ["h", "f"]⟩ none 3
      = ((safe_remove ⟨[(⟨true, ["h", "f"]⟩, .file "f")], []⟩ ⟨true, ["h", "f"]⟩ 3).1,
          errOf (safe_remove ⟨[(⟨true, ["h", "f"]⟩, .file "f")], []⟩ ⟨true, ["h", "f"]⟩ 3).2) :=
  C7_removal_semantics (by decide) (by decide)

/-- C8: the batch is the strictly-ordered sequential composition of its
entries: a run over `L₁ ++ L₂` first performs exactly the run over `L₁`;
if that run raises, the whole run stops in the state `L₁` reached (no
rollback, nothing of `L₂` applied), otherwise `L₂` continues from the
state `L₁` produced. -/
theorem C8_batch_composition (s : St) (L₁ L₂ : List (PyPath × Option PyPath)) (v : Nat) :
    install_links s (L₁ ++ L₂) v =
      match install_links s L₁ v with
      | (s', some e) => (s', some e)
      | (s', none) => install_links s' L₂ v :=
  install_links_append s L₁ L₂ v

/-- C10: `safe_remove` on a non-absolute path, and `safe_link` on a
non-absolute destination or source, fail with a `ValueError` with the
state unchanged — for every filesystem state, so before any existence
check or mutation. -/
theorem C10_absolute_required {s₁ s₂ s₃ : St} {p dstB srcB dstC srcC : PyPath} {v : Nat}
    (h1 : p.absolute = false)
    (h2 : dstB.absolute = false)
    (h3 : dstC.absolute = true) (h4 : srcC.absolute = false) :
    safe_remove s₁ p v = (s₁, .error (.notAbsolute p)) ∧
    safe_link s₂ srcB dstB v = (s₂, some (.notAbsolute dstB)) ∧
    safe_link s₃ srcC dstC v = (s₃, some (.notAbsolute srcC)) := by
  refine ⟨?_, ?_, ?_⟩
  · rw [safe_remove, if_pos (by simp [h1])]
  · rw [safe_link, if_pos (by simp [h2])]
  · rw [safe_link, if_neg (by simp [h3]), if_pos (by simp [h4])]

theorem C10_absolute_required_witness :
    safe_remove ⟨[(⟨false, ["r"]⟩, .dir)], []⟩ ⟨false, ["r"]⟩ 3
      = (⟨[(⟨false, ["r"]⟩, .dir)], []⟩, .error (.notAbsolute ⟨false, ["r"]⟩)) ∧
    safe_link ⟨[], []⟩ ⟨true, ["s"]⟩ ⟨false, ["d"]⟩ 3
      = (⟨[], []⟩, some (.notAbsolute ⟨false, ["d"]⟩)) ∧
    safe_link ⟨[], []⟩ ⟨false, ["s"]⟩ ⟨true, ["d"]⟩ 3
      = (⟨[], []⟩, some (.notAbsolute ⟨false, ["s"]⟩)) :=
  C10_absolute_required (by decide) (by decide) (by decide) (by decide)

/-! ## Claim C9 -/

/-- C9: the verbosity levels are `0..3` in strictly increasing order of
chattiness: the rename notice of the backup primitive is emitted exactly
at levels `≥ RENAME_FILE = 1`, the link-creation notice exactly at levels
`≥ CREATE_LINK = 2`, and the already-linked notice exactly at levels
`≥ LINK_OK = 3`; the last two are each strictly more verbose than the
rename notice, and at level `0` nothing is printed. -/
theorem C9_verbosity_gating {sA sR : St} {p pb : PyPath} {vA : Nat}
    (hA : safe_remove sA p vA = (sR, .ok pb))
    {sB : St} {srcB dstB : PyPath} {vB : Nat} {eB : Entry}
    (hBd : dstB.absolute = true) (hBs : srcB.absolute = true)
    (hBl : lookupFS sB.fs dstB = some (.symlink srcB))
    (hBe : lookupFS sB.fs srcB = some eB) (hBp : eB.plainE = true)
    {sC : St} {srcC dstC : PyPath} {vC : Nat} {eC : Entry} {fsC : FSys}
    (hCd : dstC.absolute = true) (hCs : srcC.absolute = true)
    (hCe : lookupFS sC.fs srcC = some eC) (hCp : eC.plainE = true)
    (hCn : lookupFS sC.fs dstC = none)
    (hCm : mkdirParents sC.fs (parentP dstC) = .ok fsC)
    (hCne : dstC.parts ≠ []) :
    VerboseLevel.NOTHING = 0 ∧ VerboseLevel.RENAME_FILE = 1 ∧
    VerboseLevel.CREATE_LINK = 2 ∧ VerboseLevel.LINK_OK = 3 ∧
    MAX_VERBOSE = VerboseLevel.LINK_OK ∧
    VerboseLevel.RENAME_FILE < VerboseLevel.CREATE_LINK ∧
    VerboseLevel.CREATE_LINK < VerboseLevel.LINK_OK ∧
    sR.out = sA.out ++ (if VerboseLevel.RENAME_FILE ≤ vA then [.rename p pb] else []) ∧
    safe_link sB srcB dstB vB = (⟨sB.fs, sB.out ++
      (if VerboseLevel.LINK_OK ≤ vB then
        [.linkOk dstB srcB (isDirFollow sB.fs srcB)] else [])⟩, none) ∧
    safe_link sC srcC dstC vC = (⟨(dstC, .symlink srcC) :: fsC, sC.out ++
      (if VerboseLevel.CREATE_LINK ≤ vC then
        [.linking dstC srcC (isDirFollow sC.fs srcC)] else [])⟩, none) := by
  refine ⟨rfl, rfl, rfl, rfl, rfl, by decide, by decide, ?_, ?_, ?_⟩
  · obtain ⟨n, hpb, _, _, hout, _, _⟩ := safe_remove_ok hA
    exact hout
  · have hex : existsFollow sB.fs srcB = true := by
      rw [existsFollow, show (40 : Nat) = 39 + 1 from rfl, resolveEntry_plain hBe hBp 39]
      rfl
    have hok : linkOkCheck sB.fs dstB srcB = true := by
      rw [linkOkCheck, hBl]
      simp
    rw [safe_link_noop hBd hBs hex hok]
    by_cases hv : VerboseLevel.LINK_OK ≤ vB <;> simp [hv]
  · have hex : existsFollow sC.fs srcC = true := by
      rw [existsFollow, show (40 : Nat) = 39 + 1 from rfl, resolveEntry_plain hCe hCp 39]
      rfl
    rw [safe_link, if_neg (by simp [hCd]), if_neg (by simp [hCs]), if_neg (by simp [hex]),
      if_neg (by rw [linkOkCheck, hCn]; simp), if_neg (by simp [existsNoFollow, hCn])]
    have hfree : lookupFS fsC dstC = none := by
      rcases mkdirParents_frame hCm dstC with heq | hnew
      · rw [heq, hCn]
      · exfalso
        have hlenle := hnew.2.2.2.length_le
        have h2 : (parentP dstC).parts.length = dstC.parts.length - 1 :=
          List.length_dropLast dstC.parts
        have hpos : 0 < dstC.parts.length := List.length_pos.mpr hCne
        omega
    simp only [createLink, hCm]
    rw [symlinkTo, if_neg (by simp [existsNoFollow, hfree])]
    by_cases hv : VerboseLevel.CREATE_LINK ≤ vC <;> simp [hv]

theorem C9_verbosity_gating_witness :
    VerboseLevel.NOTHING = 0 ∧ VerboseLevel.RENAME_FILE = 1 ∧
    VerboseLevel.CREATE_LINK = 2 ∧ VerboseLevel.LINK_OK = 3 ∧
    MAX_VERBOSE = VerboseLevel.LINK_OK ∧
    VerboseLevel.RENAME_FILE < VerboseLevel.CREATE_LINK ∧
    VerboseLevel.CREATE_LINK < VerboseLevel.LINK_OK ∧
    (safe_remove ⟨[(⟨true, ["h", "f"]⟩, .file "f")], []⟩ ⟨true, ["h", "f"]⟩ 1).1.out
      = [] ++ (if VerboseLevel.RENAME_FILE ≤ 1 then
          [.rename ⟨true, ["h", "f"]⟩ (bkpName ⟨true, ["h", "f"]⟩ 0)] else []) ∧
    safe_link ⟨[(⟨true, ["h", "l"]⟩, .symlink ⟨true, ["s", "m"]⟩),
        (⟨true, ["s", "m"]⟩, .file "m")], []⟩ ⟨true, ["s", "m"]⟩ ⟨true, ["h", "l"]⟩ 3
      = (⟨[(⟨true, ["h", "l"]⟩, .symlink ⟨true, ["s", "m"]⟩), (⟨true, ["s", "m"]⟩, .file "m")],
          [] ++ (if VerboseLevel.LINK_OK ≤ 3 then
            [.linkOk ⟨true, ["h", "l"]⟩ ⟨true, ["s", "m"]⟩
              (isDirFollow [(⟨true, ["h", "l"]⟩, .symlink ⟨true, ["s", "m"]⟩),
                (⟨true, ["s", "m"]⟩, .file "m")] ⟨true, ["s", "m"]⟩)] else [])⟩, none) ∧
    safe_link ⟨[(⟨true, ["s", "m"]⟩, .file "m"), (⟨true, ["h"]⟩, .dir)], []⟩
        ⟨true, ["s", "m"]⟩ ⟨true, ["h", "l"]⟩ 2
      = (⟨(⟨true, ["h", "l"]⟩, .symlink ⟨true, ["s", "m"]⟩) ::
            [(⟨true, ["s", "m"]⟩, .file "m"), (⟨true, ["h"]⟩, .dir)],
          [] ++ (if VerboseLevel.CREATE_LINK ≤ 2 then
            [.linking ⟨true, ["h", "l"]⟩ ⟨true, ["s", "m"]⟩
              (isDirFollow [(⟨true, ["s", "m"]⟩, .file "m"), (⟨true, ["h"]⟩, .dir)]
                ⟨true, ["s", "m"]⟩)] else [])⟩, none) := by
  have h := @C9_verbosity_gating
    ⟨[(⟨true, ["h", "f"]⟩, .file "f")], []⟩
    (safe_remove ⟨[(⟨true, ["h", "f"]⟩, .file "f")], []⟩ ⟨true, ["h", "f"]⟩ 1).1
    ⟨true, ["h", "f"]⟩ (bkpName ⟨true, ["h", "f"]⟩ 0) 1 (by decide)
    ⟨[(⟨true, ["h", "l"]⟩, .symlink ⟨true, ["s", "m"]⟩), (⟨true, ["s", "m"]⟩, .file "m")], []⟩
    ⟨true, ["s", "m"]⟩ ⟨true, ["h", "l"]⟩ 3 (.file "m")
    (by decide) (by decide) (by decide) (by decide) (by decide)
    ⟨[(⟨true, ["s", "m"]⟩, .file "m"), (⟨true, ["h"]⟩, .dir)], []⟩
    ⟨true, ["s", "m"]⟩ ⟨true, ["h", "l"]⟩ 2 (.file "m")
    [(⟨true, ["s", "m"]⟩, .file "m"), (⟨true, ["h"]⟩, .dir)]
    (by decide) (by decide) (by decide) (by decide) (by decide) (by decide) (by decide)
  exact h

/-! ## Claim C4 -/

/-- C4 (amended): with containment checking enabled
(`allow_linking_outside_dst_dir = False`), resolution accepts a
configuration only if every resolved destination is a strict
literal-component descendant of `dst_dir` and every resolved non-removal
source a strict literal-component descendant of `src_dir`; a violating
input is rejected with the scope `ValueError` by the pure resolution
step, before any filesystem mutation can happen.  The check is lexical:
`..` components are kept literally, so they do not violate it (see the
counterexample). -/
theorem C4_scope_containment {data locs : List (PyPath × Option PyPath)}
    {src_dir dst_dir cwd home : PyPath} {fR fA : Bool}
    (h : read_locations_file data src_dir dst_dir cwd home false fR fA = .ok locs)
    {dataB : List (PyPath × Option PyPath)} {sdB ddB cwdB homeB : PyPath} {fRB fAB : Bool}
    (hBa : (fRB && fAB) = false)
    (hBb : (fRB && dataB.any fun x => !x.1.absolute) = false)
    (hBc : (fAB && dataB.any fun x => x.1.absolute) = false)
    (hBd : (dataB.any fun x => x.2.any (·.absolute)) = false)
    (hBe : ((dataB.map fun x => (pjoin (pabsolute cwdB ddB) (expanduserP homeB x.1),
              x.2.map (pjoin (pabsolute cwdB sdB) ·))).all
            fun x => inParents (pabsolute cwdB ddB) x.1) = false) :
    (∀ a ∈ locs, inParents (pabsolute cwd dst_dir) a.1 = true ∧
      ∀ srcp, a.2 = some srcp → inParents (pabsolute cwd src_dir) srcp = true) ∧
    read_locations_file dataB sdB ddB cwdB homeB false fRB fAB
      = .error (.dstOutside (pabsolute cwdB ddB)) := by
  constructor
  · rw [read_locations_file] at h
    split at h
    · exact absurd h (by simp)
    split at h
    · exact absurd h (by simp)
    split at h
    · exact absurd h (by simp)
    split at h
    · exact absurd h (by simp)
    split at h
    · exact absurd h (by simp)
    split at h
    · exact absurd h (by simp)
    · rename_i hdst hsrc
      have hlocs : locs = (data.map fun x =>
          (pjoin (pabsolute cwd dst_dir) (expanduserP home x.1),
            x.2.map (pjoin (pabsolute cwd src_dir) ·))) :=
        (Except.ok.inj h).symm
      have hdst' : ((data.map fun x =>
          (pjoin (pabsolute cwd dst_dir) (expanduserP home x.1),
            x.2.map (pjoin (pabsolute cwd src_dir) ·))).all
          fun x => inParents (pabsolute cwd dst_dir) x.1) = true := by
        rcases hb : ((data.map fun x =>
            (pjoin (pabsolute cwd dst_dir) (expanduserP home x.1),
              x.2.map (pjoin (pabsolute cwd src_dir) ·))).all
            fun x => inParents (pabsolute cwd dst_dir) x.1) with _ | _
        · exact absurd (by simp [hb]) hdst
        · exact hb
      have hsrc' : ((data.map fun x =>
          (pjoin (pabsolute cwd dst_dir) (expanduserP home x.1),
            x.2.map (pjoin (pabsolute cwd src_dir) ·))).all
          fun x => x.2.all (inParents (pabsolute cwd src_dir) ·)) = true := by
        rcases hb : ((data.map fun x =>
            (pjoin (pabsolute cwd dst_dir) (expanduserP home x.1),
              x.2.map (pjoin (pabsolute cwd src_dir) ·))).all
            fun x => x.2.all (inParents (pabsolute cwd src_dir) ·)) with _ | _
        · exact absurd (by simp [hb]) hsrc
        · exact hb
      intro a ha
      rw [hlocs] at ha
      refine ⟨List.all_eq_true.mp hdst' a ha, ?_⟩
      intro srcp hs
      have h2 := List.all_eq_true.mp hsrc' a ha
      rw [hs] at h2
      simpa [Option.all] using h2
  · rw [read_locations_file, if_neg (by simp [hBa]), if_neg (by simp [hBb]),
      if_neg (by simp [hBc]), if_neg (by simp [hBd]), if_pos (by simp [hBe])]

theorem C4_scope_containment_witness :
    read_locations_file [(⟨true, ["etc", "passwd"]⟩, some ⟨false, ["a"]⟩)]
      ⟨true, ["s"]⟩ ⟨true, ["h"]⟩ ⟨true, []⟩ ⟨true, ["h"]⟩ false false false
    = .error (.dstOutside (pabsolute ⟨true, []⟩ ⟨true, ["h"]⟩)) := by
  have h := @C4_scope_containment
    [(⟨false, [".bashrc"]⟩, some ⟨false, ["rc"]⟩)]
    [(⟨true, ["h", ".bashrc"]⟩, some ⟨true, ["s", "rc"]⟩)]
    ⟨true, ["s"]⟩ ⟨true, ["h"]⟩ ⟨true, []⟩ ⟨true, ["h"]⟩ false false
    (by decide)
    [(⟨true, ["etc", "passwd"]⟩, some ⟨false, ["a"]⟩)]
    ⟨true, ["s"]⟩ ⟨true, ["h"]⟩ ⟨true, []⟩ ⟨true, ["h"]⟩ false false
    (by decide) (by decide) (by decide) (by decide) (by decide)
  exact h.2

/-- C4 as stated is false: an input that escapes the roots via `..` path
components is accepted without error, because pathlib keeps `..`
literally and the `dst_dir in dst.parents` check is purely lexical.  The
accepted destination `/h/../etc/passwd` passes the literal check, yet its
real location (after lexically resolving `..`) is `/etc/passwd`, outside
`dst_dir = /h`. -/
theorem C4_counterexample :
    read_locations_file [(⟨false, ["..", "etc", "passwd"]⟩, some ⟨false, ["a"]⟩)]
      ⟨true, ["s"]⟩ ⟨true, ["h"]⟩ ⟨true, []⟩ ⟨true, ["h"]⟩ false false false
      = .ok [(⟨true, ["h", "..", "etc", "passwd"]⟩, some ⟨true, ["s", "a"]⟩)] ∧
    inParents ⟨true, ["h"]⟩ ⟨true, ["h", "..", "etc", "passwd"]⟩ = true ∧
    normParts ["h", "..", "etc", "passwd"] = ["etc", "passwd"] ∧
    inParents ⟨true, ["h"]⟩ ⟨true, normParts ["h", "..", "etc", "passwd"]⟩ = false := by
  decide
